import Mathlib

/-!
Verification of the lighthouse peer-sync core against its design.

The development shallowly embeds the Rust sources:
  * `eth2/utils/tree_hash/src/merkle_stream.rs` (streaming Merkle hasher),
  * `beacon_node/network/src/sync/message_processor.rs` (peer classification,
    block-range server, gossip handlers),
  * `beacon_node/store/src/leveldb_store.rs` (atomic batch semantics).

SHA-256 is abstracted by an arbitrary binary combiner `hash2 : α → α → α`
acting on 32-byte values (a `Context` fed a left child and then a right child,
then finalised, computes exactly `hash2 left right`); the 32-byte all-zero
value is an arbitrary distinguished element `z : α`.  All theorems hold for
every choice of `hash2` and `z`, hence in particular for real SHA-256.
-/

namespace MerkleModel

universe u

variable {α : Type u}

/-- The error type of the streaming hasher (`merkle_stream.rs`, `enum Error`). -/
inductive StreamError where
  | MaximumLeavesExceeded (max_leaves : Nat)
  deriving Repr, DecidableEq

/-- A node that has had a left child supplied, but not a right child
(`merkle_stream.rs`, `struct HalfNode`).  The Rust field `context` is a
SHA-256 context that has been fed the left child's 32 bytes; finishing it
with a right child `r` produces `hash2 left r`, so we store the left value. -/
structure HalfNode (α : Type u) where
  left : α
  id : Nat
  deriving Repr, DecidableEq

/-- The streaming hasher state (`merkle_stream.rs`, `struct MerkleStream`).
The `half_nodes` smallvec is modelled as a list whose head is the top of the
stack (the last element of the Rust vector). -/
structure MerkleStream (α : Type u) where
  half_nodes : List (HalfNode α)
  depth : Nat
  next_leaf : Nat
  root : Option α
  deriving Repr, DecidableEq

/-- `fn get_parent(i) = i / 2`. -/
def get_parent (i : Nat) : Nat := i / 2

/-- `fn get_depth(i)`: the depth of the node with id `i`, computed in Rust as
`bits - leading_zeros i - 1`, which equals `floor (log2 i)` for `i ≥ 1`.
The source documents `i == 0` as a logic error and never supplies it. -/
def get_depth (i : Nat) : Nat := Nat.log2 i

/-- Modelled from the spec: `get_zero_hash k` (from `tree_hash/src/lib.rs`,
which is outside the provided sources) is the precomputed zero-hash of level
`k`: `Z[0] = [0; 32]`, `Z[k] = SHA256(Z[k-1] ‖ Z[k-1])`. -/
def get_zero_hash (hash2 : α → α → α) (z : α) : Nat → α
  | 0 => z
  | k + 1 => hash2 (get_zero_hash hash2 z k) (get_zero_hash hash2 z k)

/-- `MerkleStream::new(depth)`: empty stack, `next_leaf = 1 << (depth - 1)`,
no root.  The Rust `NonZeroUsize` argument is modelled by stating the
theorems under `1 ≤ depth`. -/
def new (depth : Nat) : MerkleStream α :=
  { half_nodes := [], depth := depth, next_leaf := 2 ^ (depth - 1), root := none }

/-- Rust `usize::next_power_of_two`: the smallest power of two `≥ n`
(and `1` for `n = 0`).  The standard-library bit-twiddling implementation is
outside the sources; it is modelled by its documented semantics. -/
def next_power_of_two (n : Nat) : Nat :=
  if n ≤ 1 then 1 else 2 ^ Nat.clog 2 n

/-- `MerkleStream::new_for_leaf_count(num_leaves)`:
`depth = get_depth (next_power_of_two num_leaves) + 1`. -/
def new_for_leaf_count (num_leaves : Nat) : MerkleStream α :=
  new (get_depth (next_power_of_two num_leaves) + 1)

/-- `MerkleStream::process_left_node(id, preimage)`: push a new half-node for
the parent of `id` whose left value is `preimage`. -/
def process_left_node (s : MerkleStream α) (id : Nat) (preimage : α) : MerkleStream α :=
  { s with half_nodes := ⟨preimage, get_parent id⟩ :: s.half_nodes }

/-- The loop body of `MerkleStream::process_right_node`: with `preimage` the
value of the right child of `parent`, repeatedly complete the half-node
waiting on top of the stack.  Returns the new stack together with the root if
the walk reached node `1`. -/
def collapse (hash2 : α → α → α) :
    List (HalfNode α) → Nat → α → List (HalfNode α) × Option α
  | node :: rest, parent, preimage =>
    if node.id = parent then
      let d := hash2 node.left preimage
      if parent = 1 then (rest, some d)
      else collapse hash2 rest (get_parent parent) d
    else (⟨preimage, parent⟩ :: node :: rest, none)
  | [], parent, preimage => ([⟨preimage, parent⟩], none)

/-- `MerkleStream::process_right_node(id, preimage)`. -/
def process_right_node (hash2 : α → α → α) (s : MerkleStream α) (id : Nat)
    (preimage : α) : MerkleStream α :=
  match collapse hash2 s.half_nodes (get_parent id) preimage with
  | (stack, none) => { s with half_nodes := stack }
  | (stack, some r) => { s with half_nodes := stack, root := some r }

/-- `MerkleStream::process_leaf(leaf)`.  The Rust method mutates `&mut self`
and returns `Result<(), Error>`; the returned stream is the post-state of
`self` (unchanged when the error is returned, since the method returns
early before any mutation). -/
def process_leaf (hash2 : α → α → α) (s : MerkleStream α) (leaf : α) :
    MerkleStream α × Option StreamError :=
  let max_leaves := 2 ^ (s.depth + 1)
  if max_leaves < s.next_leaf then
    (s, some (.MaximumLeavesExceeded max_leaves))
  else
    let s' :=
      if s.next_leaf = 1 then { s with root := some leaf }
      else if s.next_leaf % 2 = 0 then process_left_node s s.next_leaf leaf
      else process_right_node hash2 s s.next_leaf leaf
    ({ s' with next_leaf := s'.next_leaf + 1 }, none)

/-- `MerkleStream::zero_hash(id)`: the zero-hash for node `id` of this tree,
`get_zero_hash (depth - (get_depth id + 1))`. -/
def zero_hash (hash2 : α → α → α) (z : α) (s : MerkleStream α) (id : Nat) : α :=
  get_zero_hash hash2 z (s.depth - (get_depth id + 1))

/-- The loop of `MerkleStream::finish`, with explicit fuel.  Each recursive
call performs exactly one iteration of the Rust `loop`.  `none` means the
fuel was exhausted before the loop returned. -/
def finish_go (hash2 : α → α → α) (z : α) : Nat → MerkleStream α → Option α
  | 0, _ => none
  | n + 1, s =>
    match s.root with
    | some root => some root
    | none =>
      match s.half_nodes with
      | node :: _ =>
        let right_child := node.id * 2 + 1
        finish_go hash2 z n
          (process_right_node hash2 s right_child (zero_hash hash2 z s right_child))
      | [] =>
        if s.next_leaf = 1 then some z
        else finish_go hash2 z n
          (process_left_node s s.next_leaf (zero_hash hash2 z s s.next_leaf))

/-- `MerkleStream::finish()`.  The Rust loop terminates for every state
reachable through `new` / `process_leaf` in at most `4 * 2 ^ depth` iterations
(established by the correctness proof below); the fuelled model returns the
same root on those states and `none` only on unreachable garbage states on
which the Rust loop would not terminate. -/
def finish (hash2 : α → α → α) (z : α) (s : MerkleStream α) : Option α :=
  finish_go hash2 z (4 * 2 ^ s.depth) s

/-- Feed a list of leaves via `process_leaf`, stopping at the first error
(callers in the source `expect` success on every call). -/
def process_leaves (hash2 : α → α → α) :
    MerkleStream α → List α → MerkleStream α × Option StreamError
  | s, [] => (s, none)
  | s, l :: ls =>
    match process_leaf hash2 s l with
    | (s', none) => process_leaves hash2 s' ls
    | (s', some e) => (s', some e)

/-! ### The specification-side Merkle root

Transcribed from the claim: the root of the zero-padded full binary Merkle
tree with `h` hashing levels (tree depth `h + 1`) over a list of leaves,
where missing trailing leaves are the zero value and every inner node is the
hash of the concatenation of its children. -/

/-- Root of the zero-padded full binary Merkle tree with `h` hashing levels
over `leaves` (at most `2 ^ h` of them). -/
def spec_root (hash2 : α → α → α) (z : α) : Nat → List α → α
  | 0, leaves => leaves.headD z
  | h + 1, leaves =>
    hash2 (spec_root hash2 z h (leaves.take (2 ^ h)))
          (spec_root hash2 z h (leaves.drop (2 ^ h)))

/-- Combine adjacent leaves pairwise, padding a trailing odd leaf with the
zero value. -/
def pair_up (hash2 : α → α → α) (z : α) : List α → List α
  | [] => []
  | [a] => [hash2 a z]
  | a :: b :: rest => hash2 a b :: pair_up hash2 z rest

/-- Combining the leaves of a tree pairwise lifts the zero value one level. -/
theorem get_zero_hash_shift (hash2 : α → α → α) (z : α) (k : Nat) :
    get_zero_hash hash2 (hash2 z z) k = get_zero_hash hash2 z (k + 1) := by
  induction k with
  | zero => rfl
  | succ k ih => simp [get_zero_hash, ih]

theorem pair_up_take_drop (hash2 : α → α → α) (z : α) :
    ∀ (m : Nat) (ls : List α),
      pair_up hash2 z (ls.take (2 * m)) = (pair_up hash2 z ls).take m ∧
      pair_up hash2 z (ls.drop (2 * m)) = (pair_up hash2 z ls).drop m := by
  intro m
  induction m with
  | zero => intro ls; simp [pair_up]
  | succ m ih =>
    intro ls
    match ls with
    | [] => simp [pair_up]
    | [a] =>
      have hta : List.take (2 * (m + 1)) [a] = [a] :=
        List.take_of_length_le (by simp; omega)
      have htb : List.take (m + 1) [hash2 a z] = [hash2 a z] :=
        List.take_of_length_le (by simp)
      have hda : List.drop (2 * (m + 1)) [a] = [] :=
        List.drop_eq_nil_of_le (by simp; omega)
      have hdb : List.drop (m + 1) [hash2 a z] = [] :=
        List.drop_eq_nil_of_le (by simp)
      exact ⟨by simp [pair_up, hta, htb], by simp [pair_up, hda, hdb]⟩
    | a :: b :: rest =>
      have h2m : 2 * (m + 1) = 2 * m + 1 + 1 := by omega
      have := ih rest
      constructor
      · simp [h2m, pair_up, List.take_succ_cons, this.1]
      · simp [h2m, pair_up, this.2]

/-- Bottom-up pairing: one hashing level of the spec tree equals pairing up
the leaves against a lifted zero value. -/
theorem spec_root_pair (hash2 : α → α → α) (z : α) :
    ∀ (h : Nat) (ls : List α),
      spec_root hash2 z (h + 1) ls =
        spec_root hash2 (hash2 z z) h (pair_up hash2 z ls) := by
  intro h
  induction h with
  | zero =>
    intro ls
    match ls with
    | [] => simp [spec_root, pair_up]
    | [a] => simp [spec_root, pair_up, List.take, List.drop]
    | a :: b :: rest => simp [spec_root, pair_up, List.take, List.drop]
  | succ h ih =>
    intro ls
    have htd := pair_up_take_drop hash2 z (2 ^ h) ls
    have hpow : 2 * 2 ^ h = 2 ^ (h + 1) := by ring
    calc spec_root hash2 z (h + 1 + 1) ls
        = hash2 (spec_root hash2 z (h + 1) (ls.take (2 ^ (h + 1))))
                (spec_root hash2 z (h + 1) (ls.drop (2 ^ (h + 1)))) := rfl
      _ = hash2 (spec_root hash2 (hash2 z z) h (pair_up hash2 z (ls.take (2 * 2 ^ h))))
                (spec_root hash2 (hash2 z z) h (pair_up hash2 z (ls.drop (2 * 2 ^ h)))) := by
          rw [hpow, ih, ih]
      _ = spec_root hash2 (hash2 z z) (h + 1) (pair_up hash2 z ls) := by
          rw [htd.1, htd.2]; rfl

/-- Interleave a list of pairs into a flat list. -/
def flatten2 : List (α × α) → List α
  | [] => []
  | (a, b) :: ps => a :: b :: flatten2 ps

theorem flatten2_length (ps : List (α × α)) : (flatten2 ps).length = 2 * ps.length := by
  induction ps with
  | nil => rfl
  | cons p ps ih => simp [flatten2, ih]; omega

theorem pair_up_flatten2 (hash2 : α → α → α) (z : α) (ps : List (α × α)) :
    pair_up hash2 z (flatten2 ps) = ps.map fun p => hash2 p.1 p.2 := by
  induction ps with
  | nil => rfl
  | cons p ps ih => simp [flatten2, pair_up, ih]

theorem pair_up_flatten2_odd (hash2 : α → α → α) (z : α) (ps : List (α × α)) (a : α) :
    pair_up hash2 z (flatten2 ps ++ [a]) =
      (ps.map fun p => hash2 p.1 p.2) ++ [hash2 a z] := by
  induction ps with
  | nil => rfl
  | cons p ps ih => simp [flatten2, pair_up, ih]

/-- Every list is a list of pairs, possibly followed by one leftover element. -/
theorem exists_flatten2_decomp :
    ∀ (ls : List α), (∃ ps : List (α × α), ls = flatten2 ps) ∨
      (∃ (ps : List (α × α)) (a : α), ls = flatten2 ps ++ [a]) := by
  have key : ∀ (n : Nat) (ls : List α), ls.length ≤ n →
      (∃ ps : List (α × α), ls = flatten2 ps) ∨
        (∃ (ps : List (α × α)) (a : α), ls = flatten2 ps ++ [a]) := by
    intro n
    induction n with
    | zero =>
      intro ls h
      left; exact ⟨[], by simpa using List.length_eq_zero.mp (Nat.le_zero.mp h)⟩
    | succ n ih =>
      intro ls h
      match ls with
      | [] => left; exact ⟨[], rfl⟩
      | [a] => right; exact ⟨[], a, rfl⟩
      | a :: b :: rest =>
        have : rest.length ≤ n := by simp at h; omega
        rcases ih rest this with ⟨ps, hps⟩ | ⟨ps, c, hps⟩
        · left; exact ⟨(a, b) :: ps, by simp [flatten2, hps]⟩
        · right; exact ⟨(a, b) :: ps, c, by simp [flatten2, hps]⟩
  intro ls; exact key ls.length ls le_rfl

/-! ### Basic lemmas about the stream operations -/

theorem process_leaf_ok (hash2 : α → α → α) (s : MerkleStream α) (l : α)
    (h : s.next_leaf ≤ 2 ^ (s.depth + 1)) :
    (process_leaf hash2 s l).2 = none ∧
    (process_leaf hash2 s l).1.next_leaf = s.next_leaf + 1 ∧
    (process_leaf hash2 s l).1.depth = s.depth := by
  have hnot : ¬ 2 ^ (s.depth + 1) < s.next_leaf := by omega
  unfold process_leaf
  simp only [hnot, if_false]
  split
  · simp
  · split
    · simp [process_left_node]
    · unfold process_right_node
      split <;> simp_all

theorem process_leaf_err (hash2 : α → α → α) (s : MerkleStream α) (l : α)
    (h : 2 ^ (s.depth + 1) < s.next_leaf) :
    process_leaf hash2 s l =
      (s, some (.MaximumLeavesExceeded (2 ^ (s.depth + 1)))) := by
  unfold process_leaf
  simp only [h, if_true]

theorem process_leaves_ok (hash2 : α → α → α) :
    ∀ (ls : List α) (s : MerkleStream α),
      s.next_leaf + ls.length ≤ 2 ^ (s.depth + 1) + 1 →
      (process_leaves hash2 s ls).2 = none ∧
      (process_leaves hash2 s ls).1.next_leaf = s.next_leaf + ls.length ∧
      (process_leaves hash2 s ls).1.depth = s.depth := by
  intro ls
  induction ls with
  | nil => intro s _; exact ⟨rfl, by simp [process_leaves], rfl⟩
  | cons l ls ih =>
    intro s h
    have hcall : s.next_leaf ≤ 2 ^ (s.depth + 1) := by simp at h; omega
    obtain ⟨he, hn, hd⟩ := process_leaf_ok hash2 s l hcall
    rcases hp : process_leaf hash2 s l with ⟨s', e⟩
    rw [hp] at he hn hd
    simp only at he hn hd
    subst he
    have hrec := ih s' (by rw [hn, hd]; simp at h ⊢; omega)
    simp only [process_leaves, hp]
    exact ⟨hrec.1, by rw [hrec.2.1, hn]; simp; omega, by rw [hrec.2.2, hd]⟩

theorem process_leaves_append (hash2 : α → α → α) :
    ∀ (xs ys : List α) (s m : MerkleStream α),
      process_leaves hash2 s xs = (m, none) →
      process_leaves hash2 s (xs ++ ys) = process_leaves hash2 m ys := by
  intro xs
  induction xs with
  | nil =>
    intro ys s m h
    simp [process_leaves] at h
    rw [h, List.nil_append]
  | cons x xs ih =>
    intro ys s m h
    rcases hp : process_leaf hash2 s x with ⟨s', e⟩
    rw [process_leaves, hp] at h
    match e with
    | some err => simp at h
    | none => simpa [process_leaves, hp] using ih ys s' m h

/-- A `collapse` that did not find the root pushed a node, so the resulting
stack is non-empty. -/
theorem collapse_none_ne_nil (hash2 : α → α → α) :
    ∀ (st : List (HalfNode α)) (p : Nat) (x : α),
      (collapse hash2 st p x).2 = none → (collapse hash2 st p x).1 ≠ [] := by
  intro st
  induction st with
  | nil => intro p x _; simp [collapse]
  | cons node rest ih =>
    intro p x h
    by_cases hid : node.id = p
    · by_cases hp1 : p = 1
      · rw [collapse] at h
        simp [hid, hp1] at h
      · rw [collapse] at h ⊢
        simp only [hid, if_true, hp1, if_false] at h ⊢
        exact ih _ _ h
    · rw [collapse]
      simp [hid]

/-- Every id in the stack produced by `collapse` either was already present
or is a positive id at most the starting parent. -/
theorem collapse_ids (hash2 : α → α → α) :
    ∀ (st : List (HalfNode α)) (p : Nat) (x : α), 1 ≤ p →
      ∀ nd ∈ (collapse hash2 st p x).1, nd ∈ st ∨ (1 ≤ nd.id ∧ nd.id ≤ p) := by
  intro st
  induction st with
  | nil =>
    intro p x hp nd hnd
    simp [collapse] at hnd
    right; simp [hnd, hp]
  | cons node rest ih =>
    intro p x hp nd hnd
    rw [collapse] at hnd
    split at hnd
    · rename_i hid
      split at hnd
      · left; exact List.mem_cons_of_mem _ hnd
      · rename_i hp1
        have hp2 : 2 ≤ p := by omega
        have := ih (get_parent p) _ (by unfold get_parent; omega) nd hnd
        rcases this with h | h
        · left; exact List.mem_cons_of_mem _ h
        · right; exact ⟨h.1, le_trans h.2 (by unfold get_parent; omega)⟩
    · simp at hnd
      rcases hnd with h | h | h
      · right; simp [h, hp]
      · left; simp [h]
      · left; simp [h]

/-- If the stack is empty or its top does not wait at `p`, `collapse` simply
pushes a new half-node. -/
theorem collapse_push (hash2 : α → α → α) (st : List (HalfNode α)) (p : Nat) (x : α)
    (h : st = [] ∨ ∀ nd ∈ st.head?, nd.id ≠ p) :
    collapse hash2 st p x = (⟨x, p⟩ :: st, none) := by
  match st with
  | [] => rfl
  | node :: rest =>
    have : node.id ≠ p := by
      rcases h with h | h
      · simp at h
      · exact h node (by simp)
    rw [collapse]
    simp [this]

/-! ### Characterisation equations for the stream operations -/

theorem process_right_node_eq (hash2 : α → α → α) (s : MerkleStream α) (id : Nat)
    (pre : α) :
    process_right_node hash2 s id pre =
      ⟨(collapse hash2 s.half_nodes (get_parent id) pre).1, s.depth, s.next_leaf,
        ((collapse hash2 s.half_nodes (get_parent id) pre).2).elim s.root some⟩ := by
  rcases hc : collapse hash2 s.half_nodes (get_parent id) pre with ⟨stack, ro⟩
  match ro with
  | none => simp [process_right_node, hc]
  | some r => simp [process_right_node, hc]

theorem process_leaf_one (hash2 : α → α → α) (s : MerkleStream α) (l : α)
    (hmax : ¬ 2 ^ (s.depth + 1) < s.next_leaf) (h1 : s.next_leaf = 1) :
    process_leaf hash2 s l =
      (⟨s.half_nodes, s.depth, s.next_leaf + 1, some l⟩, none) := by
  unfold process_leaf
  rw [if_neg hmax, if_pos h1]

theorem process_leaf_even (hash2 : α → α → α) (s : MerkleStream α) (l : α)
    (hmax : ¬ 2 ^ (s.depth + 1) < s.next_leaf) (h1 : s.next_leaf ≠ 1)
    (hev : s.next_leaf % 2 = 0) :
    process_leaf hash2 s l =
      (⟨⟨l, get_parent s.next_leaf⟩ :: s.half_nodes, s.depth, s.next_leaf + 1,
        s.root⟩, none) := by
  unfold process_leaf
  rw [if_neg hmax, if_neg h1, if_pos hev]
  rfl

theorem process_leaf_odd (hash2 : α → α → α) (s : MerkleStream α) (l : α)
    (hmax : ¬ 2 ^ (s.depth + 1) < s.next_leaf) (h1 : s.next_leaf ≠ 1)
    (hodd : ¬ s.next_leaf % 2 = 0) :
    process_leaf hash2 s l =
      (⟨(collapse hash2 s.half_nodes (get_parent s.next_leaf) l).1, s.depth,
        s.next_leaf + 1,
        ((collapse hash2 s.half_nodes (get_parent s.next_leaf) l).2).elim s.root some⟩,
       none) := by
  unfold process_leaf
  rw [if_neg hmax, if_neg h1, if_neg hodd, process_right_node_eq]

theorem finish_go_root (hash2 : α → α → α) (z : α) {n : Nat} {s : MerkleStream α}
    {r : α} (hr : s.root = some r) : finish_go hash2 z (n + 1) s = some r := by
  obtain ⟨st, d, m, rt⟩ := s
  simp only at hr
  subst hr
  rfl

theorem finish_go_cons (hash2 : α → α → α) (z : α) {n : Nat} {s : MerkleStream α}
    {node : HalfNode α} {rest : List (HalfNode α)} (hr : s.root = none)
    (hs : s.half_nodes = node :: rest) :
    finish_go hash2 z (n + 1) s =
      finish_go hash2 z n
        (process_right_node hash2 s (node.id * 2 + 1)
          (zero_hash hash2 z s (node.id * 2 + 1))) := by
  obtain ⟨st, d, m, rt⟩ := s
  simp only at hr hs
  subst hr
  subst hs
  rfl

theorem finish_go_nil_one (hash2 : α → α → α) (z : α) {n : Nat} {s : MerkleStream α}
    (hr : s.root = none) (hs : s.half_nodes = []) (h1 : s.next_leaf = 1) :
    finish_go hash2 z (n + 1) s = some z := by
  obtain ⟨st, d, m, rt⟩ := s
  simp only at hr hs h1
  subst hr
  subst hs
  subst h1
  rfl

theorem finish_go_nil (hash2 : α → α → α) (z : α) {n : Nat} {s : MerkleStream α}
    (hr : s.root = none) (hs : s.half_nodes = []) (h1 : s.next_leaf ≠ 1) :
    finish_go hash2 z (n + 1) s =
      finish_go hash2 z n
        (process_left_node s s.next_leaf (zero_hash hash2 z s s.next_leaf)) := by
  obtain ⟨st, d, m, rt⟩ := s
  simp only at hr hs h1
  subst hr
  subst hs
  have : finish_go hash2 z (n + 1) (⟨[], d, m, none⟩ : MerkleStream α) =
      if m = 1 then some z
      else finish_go hash2 z n
        (process_left_node ⟨[], d, m, none⟩ m
          (zero_hash hash2 z ⟨[], d, m, none⟩ m)) := rfl
  rw [this, if_neg h1]

/-- After a successful `process_leaf`, the stream has a root or a non-empty
stack. -/
theorem process_leaf_nontrivial (hash2 : α → α → α) (s : MerkleStream α) (l : α)
    (s' : MerkleStream α) (h : process_leaf hash2 s l = (s', none)) :
    s'.root.isSome ∨ s'.half_nodes ≠ [] := by
  by_cases hmax : 2 ^ (s.depth + 1) < s.next_leaf
  · rw [process_leaf_err hash2 s l hmax] at h
    simp at h
  · by_cases h1 : s.next_leaf = 1
    · rw [process_leaf_one hash2 s l hmax h1] at h
      injection h with hL hR
      rw [← hL]
      simp
    · by_cases hev : s.next_leaf % 2 = 0
      · rw [process_leaf_even hash2 s l hmax h1 hev] at h
        injection h with hL hR
        rw [← hL]
        simp
      · rw [process_leaf_odd hash2 s l hmax h1 hev] at h
        injection h with hL hR
        rcases hc : collapse hash2 s.half_nodes (get_parent s.next_leaf) l with ⟨stack, ro⟩
        rw [hc] at hL
        match ro with
        | some r =>
          rw [← hL]
          simp
        | none =>
          right
          rw [← hL]
          have hne := collapse_none_ne_nil hash2 s.half_nodes (get_parent s.next_leaf) l
            (by rw [hc])
          rw [hc] at hne
          simpa using hne

theorem process_leaves_nontrivial (hash2 : α → α → α) :
    ∀ (ls : List α) (s s' : MerkleStream α), ls ≠ [] →
      process_leaves hash2 s ls = (s', none) →
      s'.root.isSome ∨ s'.half_nodes ≠ [] := by
  intro ls
  induction ls with
  | nil => intro s s' h; simp at h
  | cons l ls ih =>
    intro s s' _ h
    rcases hp : process_leaf hash2 s l with ⟨s1, e⟩
    rw [process_leaves, hp] at h
    match e with
    | some err => simp at h
    | none =>
      match ls with
      | [] =>
        simp [process_leaves] at h
        rw [← h]
        exact process_leaf_nontrivial hash2 s l s1 hp
      | m :: ms => exact ih s1 s' (by simp) h

/-- More fuel never changes a successful `finish_go`. -/
theorem finish_go_mono (hash2 : α → α → α) (z : α) :
    ∀ (n : Nat) (s : MerkleStream α) (r : α), finish_go hash2 z n s = some r →
      ∀ m, n ≤ m → finish_go hash2 z m s = some r := by
  intro n
  induction n with
  | zero => intro s r h; simp [finish_go] at h
  | succ n ih =>
    intro s r h m hm
    match m with
    | 0 => omega
    | m + 1 =>
      have hnm : n ≤ m := by omega
      rcases hr : s.root with _ | root
      · rcases hs : s.half_nodes with _ | ⟨node, rest⟩
        · by_cases h1 : s.next_leaf = 1
          · rw [finish_go_nil_one hash2 z hr hs h1] at h
            rw [finish_go_nil_one hash2 z hr hs h1]
            exact h
          · rw [finish_go_nil hash2 z hr hs h1] at h
            rw [finish_go_nil hash2 z hr hs h1]
            exact ih _ _ h _ hnm
        · rw [finish_go_cons hash2 z hr hs] at h
          rw [finish_go_cons hash2 z hr hs]
          exact ih _ _ h _ hnm
      · rw [finish_go_root hash2 z hr] at h
        rw [finish_go_root hash2 z hr]
        exact h

/-- Once the stream has a root or a pending half-node, `finish_go` never
looks at `next_leaf`. -/
theorem finish_go_next_irrel (hash2 : α → α → α) (z : α) :
    ∀ (n : Nat) (st : List (HalfNode α)) (d n1 n2 : Nat) (rt : Option α),
      st ≠ [] ∨ rt.isSome →
      finish_go hash2 z n ⟨st, d, n1, rt⟩ = finish_go hash2 z n ⟨st, d, n2, rt⟩ := by
  intro n
  induction n with
  | zero => intro st d n1 n2 rt _; rfl
  | succ n ih =>
    intro st d n1 n2 rt h
    match rt with
    | some r =>
      rw [@finish_go_root _ hash2 z n ⟨st, d, n1, some r⟩ r rfl]
      rw [@finish_go_root _ hash2 z n ⟨st, d, n2, some r⟩ r rfl]
    | none =>
      match st with
      | [] => simp at h
      | node :: rest =>
        rw [@finish_go_cons _ hash2 z n ⟨node :: rest, d, n1, none⟩ node rest rfl rfl]
        rw [@finish_go_cons _ hash2 z n ⟨node :: rest, d, n2, none⟩ node rest rfl rfl]
        rw [process_right_node_eq, process_right_node_eq]
        have hz : zero_hash hash2 z (⟨node :: rest, d, n2, none⟩ : MerkleStream α)
            (node.id * 2 + 1) =
            zero_hash hash2 z (⟨node :: rest, d, n1, none⟩ : MerkleStream α)
            (node.id * 2 + 1) := rfl
        rw [hz]
        simp only
        rcases hc : collapse hash2 (node :: rest) (get_parent (node.id * 2 + 1))
            (zero_hash hash2 z (⟨node :: rest, d, n1, none⟩ : MerkleStream α)
              (node.id * 2 + 1)) with ⟨stack, ro⟩
        match ro with
        | some r => exact ih stack d n1 n2 (some r) (Or.inr rfl)
        | none =>
          have hne := collapse_none_ne_nil hash2 (node :: rest) _ _ (by rw [hc])
          rw [hc] at hne
          exact ih stack d n1 n2 none (Or.inl hne)

/-- The stack invariant maintained by `process_leaf` within capacity:
all waiting half-nodes sit strictly above the next leaf position. -/
def StackInv (s : MerkleStream α) : Prop :=
  ∀ nd ∈ s.half_nodes, 1 ≤ nd.id ∧ 2 * nd.id < s.next_leaf

/-- Re-interpret a stream one level lower in a tree one level deeper:
same stack, same root, depth one more, next leaf id doubled. -/
def lift (s : MerkleStream α) : MerkleStream α :=
  ⟨s.half_nodes, s.depth + 1, 2 * s.next_leaf, s.root⟩

theorem lift_new (d : Nat) (hd : 1 ≤ d) : lift (new d : MerkleStream α) = new (d + 1) := by
  have h : 2 * 2 ^ (d - 1) = 2 ^ (d + 1 - 1) := by
    rw [Nat.succ_sub_one]
    calc 2 * 2 ^ (d - 1) = 2 ^ (d - 1 + 1) := by ring
      _ = 2 ^ d := by congr 1; omega
  unfold lift new
  simp [h]

theorem StackInv_process_leaf (hash2 : α → α → α) (s : MerkleStream α) (l : α)
    (hinv : StackInv s) (h1 : 1 ≤ s.next_leaf) :
    StackInv (process_leaf hash2 s l).1 ∧ 1 ≤ (process_leaf hash2 s l).1.next_leaf := by
  by_cases hmax : 2 ^ (s.depth + 1) < s.next_leaf
  · rw [process_leaf_err hash2 s l hmax]
    exact ⟨hinv, h1⟩
  · by_cases hone : s.next_leaf = 1
    · rw [process_leaf_one hash2 s l hmax hone]
      refine ⟨?_, by show 1 ≤ s.next_leaf + 1; omega⟩
      intro nd hnd
      have := hinv nd hnd
      show 1 ≤ nd.id ∧ 2 * nd.id < s.next_leaf + 1
      omega
    · by_cases hev : s.next_leaf % 2 = 0
      · rw [process_leaf_even hash2 s l hmax hone hev]
        refine ⟨?_, by show 1 ≤ s.next_leaf + 1; omega⟩
        intro nd hnd
        have hnd' : nd ∈ (⟨l, get_parent s.next_leaf⟩ : HalfNode α) :: s.half_nodes := hnd
        show 1 ≤ nd.id ∧ 2 * nd.id < s.next_leaf + 1
        rcases List.mem_cons.mp hnd' with h | h
        · subst h
          show 1 ≤ get_parent s.next_leaf ∧ 2 * get_parent s.next_leaf < s.next_leaf + 1
          unfold get_parent
          omega
        · have := hinv nd h
          omega
      · rw [process_leaf_odd hash2 s l hmax hone hev]
        have hm3 : 3 ≤ s.next_leaf := by omega
        have hids := collapse_ids hash2 s.half_nodes (get_parent s.next_leaf) l
          (by unfold get_parent; omega)
        refine ⟨?_, by show 1 ≤ s.next_leaf + 1; omega⟩
        intro nd hnd
        have hnd' : nd ∈ (collapse hash2 s.half_nodes (get_parent s.next_leaf) l).1 := hnd
        show 1 ≤ nd.id ∧ 2 * nd.id < s.next_leaf + 1
        rcases hids nd hnd' with h | h
        · have := hinv nd h
          omega
        · unfold get_parent at h
          omega

theorem StackInv_process_leaves (hash2 : α → α → α) :
    ∀ (ls : List α) (s : MerkleStream α), StackInv s → 1 ≤ s.next_leaf →
      StackInv (process_leaves hash2 s ls).1 ∧
      1 ≤ (process_leaves hash2 s ls).1.next_leaf := by
  intro ls
  induction ls with
  | nil => intro s hinv h1; exact ⟨hinv, h1⟩
  | cons l ls ih =>
    intro s hinv h1
    rcases hp : process_leaf hash2 s l with ⟨s', e⟩
    have hstep := StackInv_process_leaf hash2 s l hinv h1
    rw [hp] at hstep
    match e with
    | some err => simpa [process_leaves, hp] using hstep
    | none => simpa [process_leaves, hp] using ih s' hstep.1 hstep.2

/-! ### The pairwise simulation: a depth `d + 1` stream fed two leaves behaves
like a depth `d` stream fed their hash -/

theorem collapse_cons_pop (hash2 : α → α → α) (st : List (HalfNode α)) (left x : α)
    (p : Nat) (hp : p ≠ 1) :
    collapse hash2 (⟨left, p⟩ :: st) p x =
      collapse hash2 st (get_parent p) (hash2 left x) := by
  rw [collapse]
  simp [hp]

theorem collapse_cons_root (hash2 : α → α → α) (st : List (HalfNode α)) (left x : α) :
    collapse hash2 (⟨left, 1⟩ :: st) 1 x = (st, some (hash2 left x)) := by
  rw [collapse]
  simp

theorem process_leaves_cons_ok (hash2 : α → α → α) {s s1 : MerkleStream α} {l : α}
    (ls : List α) (h : process_leaf hash2 s l = (s1, none)) :
    process_leaves hash2 s (l :: ls) = process_leaves hash2 s1 ls := by
  rw [process_leaves, h]

theorem pair_step_sim (hash2 : α → α → α) (s : MerkleStream α) (a b : α)
    (hinv : StackInv s) (h1 : 1 ≤ s.next_leaf)
    (hcap : s.next_leaf < 2 ^ (s.depth + 1)) :
    process_leaves hash2 (lift s) [a, b] =
      (lift (process_leaf hash2 s (hash2 a b)).1, none) := by
  obtain ⟨st, d, m, rt⟩ := s
  simp only [StackInv] at hinv
  simp only at h1 hcap
  have hgp2m : get_parent (2 * m) = m := by unfold get_parent; omega
  have hgp2m1 : get_parent (2 * m + 1) = m := by unfold get_parent; omega
  -- the first (left) leaf is pushed
  have hstepA : process_leaf hash2 (lift ⟨st, d, m, rt⟩) a =
      (⟨⟨a, m⟩ :: st, d + 1, 2 * m + 1, rt⟩, none) := by
    have hmax : ¬ 2 ^ ((lift (⟨st, d, m, rt⟩ : MerkleStream α)).depth + 1) <
        (lift (⟨st, d, m, rt⟩ : MerkleStream α)).next_leaf := by
      show ¬ 2 ^ (d + 1 + 1) < 2 * m
      have h2 : 2 ^ (d + 1 + 1) = 2 * 2 ^ (d + 1) := by ring
      omega
    have hne : (lift (⟨st, d, m, rt⟩ : MerkleStream α)).next_leaf ≠ 1 := by
      show 2 * m ≠ 1; omega
    have hev : (lift (⟨st, d, m, rt⟩ : MerkleStream α)).next_leaf % 2 = 0 := by
      show 2 * m % 2 = 0; omega
    rw [process_leaf_even hash2 _ a hmax hne hev]
    show ((⟨⟨a, get_parent (2 * m)⟩ :: st, d + 1, 2 * m + 1, rt⟩ : MerkleStream α),
      (none : Option StreamError)) = _
    rw [hgp2m]
  rw [process_leaves_cons_ok hash2 [b] hstepA]
  -- the second (right) leaf collapses the freshly pushed half-node
  have hmaxB : ¬ 2 ^ ((⟨⟨a, m⟩ :: st, d + 1, 2 * m + 1, rt⟩ :
      MerkleStream α).depth + 1) <
      (⟨⟨a, m⟩ :: st, d + 1, 2 * m + 1, rt⟩ : MerkleStream α).next_leaf := by
    show ¬ 2 ^ (d + 1 + 1) < 2 * m + 1
    have h2 : 2 ^ (d + 1 + 1) = 2 * 2 ^ (d + 1) := by ring
    omega
  have hneB : (⟨⟨a, m⟩ :: st, d + 1, 2 * m + 1, rt⟩ :
      MerkleStream α).next_leaf ≠ 1 := by
    show 2 * m + 1 ≠ 1; omega
  have hoddB : ¬ (⟨⟨a, m⟩ :: st, d + 1, 2 * m + 1, rt⟩ :
      MerkleStream α).next_leaf % 2 = 0 := by
    show ¬ (2 * m + 1) % 2 = 0; omega
  have hstepB := process_leaf_odd hash2 (⟨⟨a, m⟩ :: st, d + 1, 2 * m + 1, rt⟩ :
      MerkleStream α) b hmaxB hneB hoddB
  have hmaxS : ¬ 2 ^ ((⟨st, d, m, rt⟩ : MerkleStream α).depth + 1) <
      (⟨st, d, m, rt⟩ : MerkleStream α).next_leaf := by
    show ¬ 2 ^ (d + 1) < m; omega
  rw [process_leaves, hstepB]
  show ((⟨(collapse hash2 (⟨a, m⟩ :: st) (get_parent (2 * m + 1)) b).1, d + 1,
      2 * m + 1 + 1,
      ((collapse hash2 (⟨a, m⟩ :: st) (get_parent (2 * m + 1)) b).2).elim rt some⟩ :
        MerkleStream α),
     (none : Option StreamError)) = _
  rw [hgp2m1]
  by_cases hm1 : m = 1
  · -- the pair reaches the root of the lifted tree exactly when the single
    -- hashed leaf is the root of the base tree
    subst hm1
    rw [collapse_cons_root hash2 st a b]
    rw [process_leaf_one hash2 _ (hash2 a b) hmaxS rfl]
    rfl
  · rw [collapse_cons_pop hash2 st a b m hm1]
    by_cases hev : m % 2 = 0
    · -- base stream pushes: the continued collapse stops immediately because
      -- no half-node can wait at id m / 2 (stack invariant)
      have hpush : collapse hash2 st (get_parent m) (hash2 a b) =
          (⟨hash2 a b, get_parent m⟩ :: st, none) := by
        apply collapse_push
        match st with
        | [] => exact Or.inl rfl
        | nd :: _ =>
          refine Or.inr ?_
          intro nd' hnd'
          simp at hnd'
          subst hnd'
          have := hinv nd (by simp)
          unfold get_parent
          omega
      rw [hpush, process_leaf_even hash2 (⟨st, d, m, rt⟩ : MerkleStream α)
        (hash2 a b) hmaxS hm1 hev]
      simp only [lift, Prod.mk.injEq, MerkleStream.mk.injEq, Option.elim,
        true_and, and_true]
      omega
    · -- base stream collapses: both sides run the identical collapse
      rw [process_leaf_odd hash2 (⟨st, d, m, rt⟩ : MerkleStream α)
        (hash2 a b) hmaxS hm1 hev]
      simp only [lift, Prod.mk.injEq, MerkleStream.mk.injEq, true_and, and_true]
      omega

theorem pairs_sim (hash2 : α → α → α) :
    ∀ (ps : List (α × α)) (s : MerkleStream α),
      StackInv s → 1 ≤ s.next_leaf →
      s.next_leaf + ps.length ≤ 2 ^ (s.depth + 1) →
      process_leaves hash2 (lift s) (flatten2 ps) =
        (lift (process_leaves hash2 s (ps.map fun p => hash2 p.1 p.2)).1, none) ∧
      (process_leaves hash2 s (ps.map fun p => hash2 p.1 p.2)).2 = none := by
  intro ps
  induction ps with
  | nil => intro s _ _ _; exact ⟨rfl, rfl⟩
  | cons p ps ih =>
    intro s hinv h1 hcap
    have hcap1 : s.next_leaf < 2 ^ (s.depth + 1) := by simp at hcap; omega
    have hsimok := process_leaf_ok hash2 s (hash2 p.1 p.2) (le_of_lt hcap1)
    rcases hp : process_leaf hash2 s (hash2 p.1 p.2) with ⟨s1, e⟩
    rw [hp] at hsimok
    obtain ⟨he, hn, hd⟩ := hsimok
    simp only at he hn hd
    subst he
    have hpair := pair_step_sim hash2 s p.1 p.2 hinv h1 hcap1
    rw [hp] at hpair
    have hinvstep := StackInv_process_leaf hash2 s (hash2 p.1 p.2) hinv h1
    rw [hp] at hinvstep
    have hrec := ih s1 hinvstep.1 hinvstep.2 (by rw [hn, hd]; simp at hcap ⊢; omega)
    have hflat : flatten2 (p :: ps) = [p.1, p.2] ++ flatten2 ps := rfl
    have hchain := process_leaves_append hash2 [p.1, p.2] (flatten2 ps)
      (lift s) (lift s1) hpair
    constructor
    · rw [hflat, hchain, hrec.1]
      have hmap : (p :: ps).map (fun q => hash2 q.1 q.2) =
          hash2 p.1 p.2 :: ps.map fun q => hash2 q.1 q.2 := rfl
      rw [hmap, process_leaves_cons_ok hash2 _ hp]
    · have hmap : (p :: ps).map (fun q => hash2 q.1 q.2) =
          hash2 p.1 p.2 :: ps.map fun q => hash2 q.1 q.2 := rfl
      rw [hmap, process_leaves_cons_ok hash2 _ hp]
      exact hrec.2

/-! ### Arithmetic facts about `Nat.log2` used by the zero-hash levels -/

theorem log2_eq_of_bounds {k n : Nat} (h1 : 2 ^ k ≤ n) (h2 : n < 2 ^ (k + 1)) :
    Nat.log2 n = k := by
  rw [Nat.log2_eq_log_two]
  exact Nat.log_eq_of_pow_le_of_lt_pow h1 h2

theorem log2_self_bounds {n : Nat} (h : 1 ≤ n) :
    2 ^ Nat.log2 n ≤ n ∧ n < 2 ^ (Nat.log2 n + 1) := by
  rw [Nat.log2_eq_log_two]
  exact ⟨Nat.pow_log_le_self 2 (by omega),
    Nat.lt_pow_succ_log_self (by norm_num) n⟩

theorem log2_double {t : Nat} (ht : 1 ≤ t) : Nat.log2 (2 * t) = Nat.log2 t + 1 := by
  obtain ⟨hlo, hhi⟩ := log2_self_bounds ht
  apply log2_eq_of_bounds
  · rw [pow_succ]; omega
  · rw [pow_succ, pow_succ] at *; omega

theorem log2_double_succ {t : Nat} (ht : 1 ≤ t) :
    Nat.log2 (2 * t + 1) = Nat.log2 t + 1 := by
  obtain ⟨hlo, hhi⟩ := log2_self_bounds ht
  apply log2_eq_of_bounds
  · rw [pow_succ]; omega
  · rw [pow_succ, pow_succ] at *; omega

theorem log2_lt_of_lt_pow {t k : Nat} (h1 : 1 ≤ t) (h : t < 2 ^ k) :
    Nat.log2 t < k := by
  obtain ⟨hlo, _⟩ := log2_self_bounds h1
  by_contra hcon
  have : 2 ^ k ≤ 2 ^ Nat.log2 t := Nat.pow_le_pow_right (by norm_num) (by omega)
  omega

/-- The finishing walk of a depth `d + 1` stream over the lifted state tracks
the finishing walk of the base depth `d` stream whose zero value is
`hash2 z z`: every zero-hash injected by the base stream at level `k` is
injected by the lifted stream at level `k + 1`, and both collapse the same
stack. -/
theorem finish_sim (hash2 : α → α → α) (z : α) :
    ∀ (n : Nat) (s : MerkleStream α) (r : α),
      (∀ nd ∈ s.half_nodes, 1 ≤ nd.id ∧ nd.id < 2 ^ (s.depth - 1)) →
      2 ^ (s.depth - 1) ≤ s.next_leaf →
      (s.next_leaf < 2 ^ s.depth ∨ s.root.isSome) →
      1 ≤ s.depth →
      finish_go hash2 (hash2 z z) n s = some r →
      finish_go hash2 z (2 * n + 2) (lift s) = some r := by
  intro n
  induction n with
  | zero => intro s r _ _ _ _ h; simp [finish_go] at h
  | succ n ih =>
    intro s r hid hlo hhi hd h
    obtain ⟨st, d, m, rt⟩ := s
    simp only at hid hlo hhi hd
    match rt with
    | some root =>
      rw [finish_go_root hash2 (hash2 z z) rfl] at h
      injection h with h
      subst h
      have hfuel : 2 * (n + 1) + 2 = (2 * n + 3) + 1 := by omega
      rw [hfuel]
      exact finish_go_root hash2 z rfl
    | none =>
      have hm1 : 1 ≤ m := le_trans (Nat.one_le_two_pow) hlo
      have hmlt : m < 2 ^ d := by
        rcases hhi with h' | h'
        · exact h'
        · simp at h'
      have hpowd : 2 ^ d = 2 * 2 ^ (d - 1) := by
        have : d - 1 + 1 = d := by omega
        calc 2 ^ d = 2 ^ (d - 1 + 1) := by rw [this]
          _ = 2 * 2 ^ (d - 1) := by ring
      match st with
      | node :: rest =>
        obtain ⟨ht1, ht2⟩ := hid node (by simp)
        have hd2 : 2 ≤ d := by
          by_contra hcon
          have hd1 : d = 1 := by omega
          rw [hd1] at ht2
          simp at ht2
          omega
        have hlogt : Nat.log2 node.id < d - 1 := log2_lt_of_lt_pow ht1 ht2
        have hgpt : get_parent (node.id * 2 + 1) = node.id := by
          unfold get_parent; omega
        -- the injected zero-hashes agree
        have hzv : zero_hash hash2 z
            (⟨node :: rest, d + 1, 2 * m, none⟩ : MerkleStream α) (node.id * 2 + 1) =
            zero_hash hash2 (hash2 z z)
            (⟨node :: rest, d, m, none⟩ : MerkleStream α) (node.id * 2 + 1) := by
          show get_zero_hash hash2 z ((d + 1) - (Nat.log2 (node.id * 2 + 1) + 1)) =
            get_zero_hash hash2 (hash2 z z) (d - (Nat.log2 (node.id * 2 + 1) + 1))
          have hmul : node.id * 2 + 1 = 2 * node.id + 1 := by ring
          rw [hmul, log2_double_succ ht1, get_zero_hash_shift]
          congr 1
          omega
        -- one step on each side, reaching lifted states again
        rw [finish_go_cons hash2 (hash2 z z) rfl rfl] at h
        have hfuel : 2 * (n + 1) + 2 = (2 * n + 3) + 1 := by omega
        rw [hfuel]
        have hlift : lift (⟨node :: rest, d, m, none⟩ : MerkleStream α) =
            ⟨node :: rest, d + 1, 2 * m, none⟩ := rfl
        rw [hlift, finish_go_cons hash2 z rfl rfl, hzv]
        have hstate : process_right_node hash2
            (⟨node :: rest, d + 1, 2 * m, none⟩ : MerkleStream α) (node.id * 2 + 1)
            (zero_hash hash2 (hash2 z z)
              (⟨node :: rest, d, m, none⟩ : MerkleStream α) (node.id * 2 + 1)) =
            lift (process_right_node hash2
              (⟨node :: rest, d, m, none⟩ : MerkleStream α) (node.id * 2 + 1)
              (zero_hash hash2 (hash2 z z)
                (⟨node :: rest, d, m, none⟩ : MerkleStream α) (node.id * 2 + 1))) := by
          rw [process_right_node_eq, process_right_node_eq]
          rfl
        rw [hstate]
        -- invariants for the post-step state
        rcases hc : collapse hash2 (node :: rest) (get_parent (node.id * 2 + 1))
            (zero_hash hash2 (hash2 z z)
              (⟨node :: rest, d, m, none⟩ : MerkleStream α) (node.id * 2 + 1))
          with ⟨stack, ro⟩
        have hids' := collapse_ids hash2 (node :: rest) (get_parent (node.id * 2 + 1))
          (zero_hash hash2 (hash2 z z)
            (⟨node :: rest, d, m, none⟩ : MerkleStream α) (node.id * 2 + 1))
          (by rw [hgpt]; omega)
        rw [hc] at hids'
        have hnew := process_right_node_eq hash2
          (⟨node :: rest, d, m, none⟩ : MerkleStream α) (node.id * 2 + 1)
          (zero_hash hash2 (hash2 z z)
            (⟨node :: rest, d, m, none⟩ : MerkleStream α) (node.id * 2 + 1))
        rw [hc] at hnew
        rw [hnew] at h ⊢
        have happly := ih (⟨stack, d, m, ro.elim none some⟩ : MerkleStream α) r ?_ ?_ ?_ ?_ h
        · exact finish_go_mono hash2 z _ _ _ happly _ (by omega)
        · intro nd hnd
          simp only at hnd ⊢
          rcases hids' nd hnd with hmem | hbound
          · exact hid nd hmem
          · rw [hgpt] at hbound
            exact ⟨hbound.1, lt_of_le_of_lt hbound.2 ht2⟩
        · exact hlo
        · exact Or.inl hmlt
        · exact hd
      | [] =>
        by_cases hm : m = 1
        · -- a depth-1 base stream with no leaves: the base returns `hash2 z z`
          -- directly, the lifted depth-2 stream computes it in three steps
          subst hm
          rw [finish_go_nil_one hash2 (hash2 z z) rfl rfl rfl] at h
          injection h with h
          subst h
          have hdq : d = 1 := by
            by_contra hcon
            have h2d : 2 ≤ d := by omega
            have : (2 : Nat) ^ 1 ≤ 2 ^ (d - 1) :=
              Nat.pow_le_pow_right (by norm_num) (by omega)
            simp at this
            omega
          subst hdq
          have hlog2 : Nat.log2 2 = 1 := log2_eq_of_bounds (by norm_num) (by norm_num)
          have hlog3 : Nat.log2 3 = 1 := log2_eq_of_bounds (by norm_num) (by norm_num)
          have hfuel : 2 * (n + 1) + 2 = ((2 * n + 2) + 1) + 1 := by omega
          rw [hfuel]
          have hlift : lift (⟨[], 1, 1, none⟩ : MerkleStream α) =
              ⟨[], 2, 2, none⟩ := rfl
          rw [hlift]
          rw [finish_go_nil hash2 z rfl rfl (by simp)]
          have hT1 : process_left_node (⟨[], 2, 2, none⟩ : MerkleStream α) 2
              (zero_hash hash2 z ⟨[], 2, 2, none⟩ 2) =
              ⟨[⟨z, 1⟩], 2, 2, none⟩ := by
            have hz : zero_hash hash2 z (⟨[], 2, 2, none⟩ : MerkleStream α) 2 = z := by
              unfold zero_hash get_depth
              rw [hlog2]
              rfl
            rw [hz]
            rfl
          rw [hT1]
          rw [finish_go_cons hash2 z rfl rfl]
          have hT2 : process_right_node hash2 (⟨[⟨z, 1⟩], 2, 2, none⟩ : MerkleStream α)
              ((⟨z, 1⟩ : HalfNode α).id * 2 + 1)
              (zero_hash hash2 z ⟨[⟨z, 1⟩], 2, 2, none⟩
                ((⟨z, 1⟩ : HalfNode α).id * 2 + 1)) =
              ⟨[], 2, 2, some (hash2 z z)⟩ := by
            have hz : zero_hash hash2 z (⟨[⟨z, 1⟩], 2, 2, none⟩ : MerkleStream α)
                ((⟨z, 1⟩ : HalfNode α).id * 2 + 1) = z := by
              unfold zero_hash get_depth
              show get_zero_hash hash2 z (2 - (Nat.log2 3 + 1)) = z
              rw [hlog3]
              rfl
            rw [hz]
            rw [process_right_node_eq]
            show (⟨(collapse hash2 [⟨z, 1⟩] (get_parent 3) z).1, 2, 2,
              ((collapse hash2 [⟨z, 1⟩] (get_parent 3) z).2).elim none some⟩ :
                MerkleStream α) = _
            have hgp3 : get_parent 3 = 1 := by unfold get_parent; omega
            rw [hgp3, collapse_cons_root hash2 [] z z]
            rfl
          rw [hT2]
          exact finish_go_root hash2 z rfl
        · -- no leaves at all: both streams push the all-zero left subtree
          have hm2 : 2 ≤ m := by omega
          have hlogm : Nat.log2 m = d - 1 := by
            apply log2_eq_of_bounds hlo
            have : d - 1 + 1 = d := by omega
            rw [this]
            exact hmlt
          rw [finish_go_nil hash2 (hash2 z z) rfl rfl hm] at h
          have hS1 : process_left_node (⟨[], d, m, none⟩ : MerkleStream α) m
              (zero_hash hash2 (hash2 z z) ⟨[], d, m, none⟩ m) =
              ⟨[⟨hash2 z z, get_parent m⟩], d, m, none⟩ := by
            have hz : zero_hash hash2 (hash2 z z) (⟨[], d, m, none⟩ : MerkleStream α) m =
                hash2 z z := by
              unfold zero_hash get_depth
              rw [hlogm]
              have : d - (d - 1 + 1) = 0 := by omega
              rw [this]
              rfl
            rw [hz]
            rfl
          rw [hS1] at h
          have hfuel : 2 * (n + 1) + 2 = ((2 * n + 2) + 1) + 1 := by omega
          rw [hfuel]
          have hlift : lift (⟨[], d, m, none⟩ : MerkleStream α) =
              ⟨[], d + 1, 2 * m, none⟩ := rfl
          rw [hlift]
          rw [finish_go_nil hash2 z rfl rfl (by show 2 * m ≠ 1; omega)]
          have hgpm : get_parent (2 * m) = m := by unfold get_parent; omega
          have hT1 : process_left_node (⟨[], d + 1, 2 * m, none⟩ : MerkleStream α)
              (2 * m) (zero_hash hash2 z ⟨[], d + 1, 2 * m, none⟩ (2 * m)) =
              ⟨[⟨z, m⟩], d + 1, 2 * m, none⟩ := by
            have hz : zero_hash hash2 z (⟨[], d + 1, 2 * m, none⟩ : MerkleStream α)
                (2 * m) = z := by
              unfold zero_hash get_depth
              rw [log2_double hm1, hlogm]
              have : d + 1 - (d - 1 + 1 + 1) = 0 := by omega
              rw [this]
              rfl
            rw [hz]
            show (⟨[⟨z, get_parent (2 * m)⟩], d + 1, 2 * m, none⟩ : MerkleStream α) = _
            rw [hgpm]
          rw [hT1]
          rw [finish_go_cons hash2 z rfl rfl]
          have hT2 : process_right_node hash2
              (⟨[⟨z, m⟩], d + 1, 2 * m, none⟩ : MerkleStream α)
              ((⟨z, m⟩ : HalfNode α).id * 2 + 1)
              (zero_hash hash2 z ⟨[⟨z, m⟩], d + 1, 2 * m, none⟩
                ((⟨z, m⟩ : HalfNode α).id * 2 + 1)) =
              ⟨[⟨hash2 z z, get_parent m⟩], d + 1, 2 * m, none⟩ := by
            have hz : zero_hash hash2 z (⟨[⟨z, m⟩], d + 1, 2 * m, none⟩ : MerkleStream α)
                ((⟨z, m⟩ : HalfNode α).id * 2 + 1) = z := by
              unfold zero_hash get_depth
              show get_zero_hash hash2 z (d + 1 - (Nat.log2 (m * 2 + 1) + 1)) = z
              have hmul : m * 2 + 1 = 2 * m + 1 := by ring
              rw [hmul, log2_double_succ hm1, hlogm]
              have : d + 1 - (d - 1 + 1 + 1) = 0 := by omega
              rw [this]
              rfl
            rw [hz]
            rw [process_right_node_eq]
            show (⟨(collapse hash2 [⟨z, m⟩] (get_parent (m * 2 + 1)) z).1, d + 1, 2 * m,
              ((collapse hash2 [⟨z, m⟩] (get_parent (m * 2 + 1)) z).2).elim none some⟩ :
                MerkleStream α) = _
            have hgpm1 : get_parent (m * 2 + 1) = m := by unfold get_parent; omega
            rw [hgpm1, collapse_cons_pop hash2 [] z z m hm]
            rfl
          rw [hT2]
          have happly := ih (⟨[⟨hash2 z z, get_parent m⟩], d, m, none⟩ : MerkleStream α)
            r ?_ hlo (Or.inl hmlt) hd h
          · exact happly
          · intro nd hnd
            simp only [List.mem_singleton] at hnd
            subst hnd
            simp only
            unfold get_parent
            constructor
            · omega
            · omega

/-! ### The main correctness statement, by induction on the depth -/

/-- The inductive package for a stream of depth `e + 1` (capacity `2 ^ e`):
feeding any in-capacity list succeeds, the root field is set exactly at full
capacity (to the spec root), and the finishing walk returns the spec root
within `4 * 2 ^ (e + 1) - 3` iterations. -/
def MainProp (hash2 : α → α → α) (e : Nat) : Prop :=
  ∀ (z : α) (ls : List α), ls.length ≤ 2 ^ e →
    (process_leaves hash2 (new (e + 1)) ls).2 = none ∧
    (ls.length < 2 ^ e → (process_leaves hash2 (new (e + 1)) ls).1.root = none) ∧
    (ls.length = 2 ^ e →
      (process_leaves hash2 (new (e + 1)) ls).1.root =
        some (spec_root hash2 z e ls)) ∧
    finish_go hash2 z (4 * 2 ^ (e + 1) - 3)
      (process_leaves hash2 (new (e + 1)) ls).1 = some (spec_root hash2 z e ls)

theorem main_zero (hash2 : α → α → α) : MainProp hash2 0 := by
  intro z ls hlen
  match ls with
  | [] =>
    refine ⟨rfl, fun _ => rfl, fun h => by simp at h, ?_⟩
    have hfuel : 4 * 2 ^ (0 + 1) - 3 = 4 + 1 := by norm_num
    rw [hfuel]
    exact finish_go_nil_one hash2 z rfl rfl rfl
  | [a] =>
    have hstep : process_leaf hash2 (new (0 + 1) : MerkleStream α) a =
        (⟨[], 1, 2, some a⟩, none) := by
      have := process_leaf_one hash2 (new (0 + 1) : MerkleStream α) a
        (by show ¬ 2 ^ (1 + 1) < 1; norm_num) rfl
      rw [this]
      rfl
    have hrun : process_leaves hash2 (new (0 + 1) : MerkleStream α) [a] =
        ((⟨[], 1, 2, some a⟩ : MerkleStream α), none) :=
      process_leaves_cons_ok hash2 [] hstep
    rw [hrun]
    refine ⟨rfl, fun h => by simp at h, fun _ => rfl, ?_⟩
    have hfuel : 4 * 2 ^ (0 + 1) - 3 = 4 + 1 := by norm_num
    rw [hfuel]
    exact finish_go_root hash2 z rfl
  | a :: b :: t => simp at hlen

theorem main_succ_even (hash2 : α → α → α) (e : Nat) (ihe : MainProp hash2 e)
    (z : α) (ps : List (α × α)) (hlen : (flatten2 ps).length ≤ 2 ^ (e + 1)) :
    (process_leaves hash2 (new (e + 1 + 1)) (flatten2 ps)).2 = none ∧
    ((flatten2 ps).length < 2 ^ (e + 1) →
      (process_leaves hash2 (new (e + 1 + 1)) (flatten2 ps)).1.root = none) ∧
    ((flatten2 ps).length = 2 ^ (e + 1) →
      (process_leaves hash2 (new (e + 1 + 1)) (flatten2 ps)).1.root =
        some (spec_root hash2 z (e + 1) (flatten2 ps))) ∧
    finish_go hash2 z (4 * 2 ^ (e + 1 + 1) - 3)
      (process_leaves hash2 (new (e + 1 + 1)) (flatten2 ps)).1 =
      some (spec_root hash2 z (e + 1) (flatten2 ps)) := by
  have hp1 : (2 : Nat) ^ (e + 1) = 2 * 2 ^ e := by ring
  have hp2 : (2 : Nat) ^ (e + 1 + 1) = 4 * 2 ^ e := by ring
  have h2e : 1 ≤ (2 : Nat) ^ e := Nat.one_le_two_pow
  have hflen : (flatten2 ps).length = 2 * ps.length := flatten2_length ps
  have hpslen : ps.length ≤ 2 ^ e := by omega
  set psm := ps.map (fun p => hash2 p.1 p.2) with hpsm
  have hpsmlen : psm.length = ps.length := by rw [hpsm]; simp
  obtain ⟨hok, hpart, hfull, hfin⟩ := ihe (hash2 z z) psm (by omega)
  have hinv0 : StackInv (new (e + 1) : MerkleStream α) := by
    intro nd hnd; simp [new] at hnd
  have hn0 : 1 ≤ (new (e + 1) : MerkleStream α).next_leaf := Nat.one_le_two_pow
  have hnewnext : (new (e + 1) : MerkleStream α).next_leaf = 2 ^ e := rfl
  have hnewdep : (new (e + 1) : MerkleStream α).depth = e + 1 := rfl
  have hcap0 : (new (e + 1) : MerkleStream α).next_leaf + ps.length ≤
      2 ^ ((new (e + 1) : MerkleStream α).depth + 1) := by
    rw [hnewnext, hnewdep]
    omega
  have hsim := pairs_sim hash2 ps (new (e + 1)) hinv0 hn0 hcap0
  rw [lift_new (e + 1) (by omega)] at hsim
  rw [← hpsm] at hsim
  set S := (process_leaves hash2 (new (e + 1)) psm).1 with hS
  -- basic facts about the base-stream final state
  have hrun := process_leaves_ok hash2 psm (new (e + 1))
    (by rw [hnewnext, hnewdep]; omega)
  have hnext : S.next_leaf = 2 ^ e + ps.length := by
    rw [← hS] at hrun
    rw [hrun.2.1, hnewnext, hpsmlen]
  have hdep : S.depth = e + 1 := by
    rw [← hS] at hrun
    rw [hrun.2.2, hnewdep]
  have hsinv := StackInv_process_leaves hash2 psm (new (e + 1)) hinv0 hn0
  rw [← hS] at hsinv
  -- spec-side bridge
  have hspec : spec_root hash2 z (e + 1) (flatten2 ps) =
      spec_root hash2 (hash2 z z) e psm := by
    rw [spec_root_pair, pair_up_flatten2, hpsm]
  refine ⟨by rw [hsim.1], ?_, ?_, ?_⟩
  · intro h
    rw [hsim.1]
    show S.root = none
    exact hpart (by omega)
  · intro h
    rw [hsim.1, hspec]
    show S.root = some (spec_root hash2 (hash2 z z) e psm)
    exact hfull (by omega)
  · rw [hsim.1, hspec]
    show finish_go hash2 z (4 * 2 ^ (e + 1 + 1) - 3) (lift S) =
      some (spec_root hash2 (hash2 z z) e psm)
    have hlift := finish_sim hash2 z (4 * 2 ^ (e + 1) - 3) S
      (spec_root hash2 (hash2 z z) e psm) ?_ ?_ ?_ ?_ hfin
    · refine finish_go_mono hash2 z _ _ _ hlift _ ?_
      have h4 : 4 * 2 ^ (e + 1) = 8 * 2 ^ e := by ring
      have h8 : 4 * 2 ^ (e + 1 + 1) = 16 * 2 ^ e := by ring
      omega
    · intro nd hnd
      obtain ⟨ha, hb⟩ := hsinv.1 nd hnd
      refine ⟨ha, ?_⟩
      rw [hdep]
      show nd.id < 2 ^ e
      omega
    · rw [hdep, hnext]
      show 2 ^ e ≤ 2 ^ e + ps.length
      omega
    · rcases Nat.lt_or_ge ps.length (2 ^ e) with hlt | hge
      · left
        rw [hdep, hnext]
        omega
      · right
        have heq : psm.length = 2 ^ e := by omega
        rw [hfull heq]
        rfl
    · rw [hdep]
      omega

theorem main_succ_odd (hash2 : α → α → α) (e : Nat) (ihe : MainProp hash2 e)
    (z : α) (ps : List (α × α)) (a : α)
    (hlen : (flatten2 ps ++ [a]).length ≤ 2 ^ (e + 1)) :
    (process_leaves hash2 (new (e + 1 + 1)) (flatten2 ps ++ [a])).2 = none ∧
    ((flatten2 ps ++ [a]).length < 2 ^ (e + 1) →
      (process_leaves hash2 (new (e + 1 + 1)) (flatten2 ps ++ [a])).1.root = none) ∧
    ((flatten2 ps ++ [a]).length = 2 ^ (e + 1) →
      (process_leaves hash2 (new (e + 1 + 1)) (flatten2 ps ++ [a])).1.root =
        some (spec_root hash2 z (e + 1) (flatten2 ps ++ [a]))) ∧
    finish_go hash2 z (4 * 2 ^ (e + 1 + 1) - 3)
      (process_leaves hash2 (new (e + 1 + 1)) (flatten2 ps ++ [a])).1 =
      some (spec_root hash2 z (e + 1) (flatten2 ps ++ [a])) := by
  have hp1 : (2 : Nat) ^ (e + 1) = 2 * 2 ^ e := by ring
  have hp2 : (2 : Nat) ^ (e + 1 + 1) = 4 * 2 ^ e := by ring
  have hp3 : (2 : Nat) ^ (e + 1 + 1 + 1) = 8 * 2 ^ e := by ring
  have h2e : 1 ≤ (2 : Nat) ^ e := Nat.one_le_two_pow
  have hlslen : (flatten2 ps ++ [a]).length = 2 * ps.length + 1 := by
    simp [flatten2_length]
  have hpslt : ps.length < 2 ^ e := by omega
  set M := 2 ^ e + ps.length with hM
  set psm := ps.map (fun p => hash2 p.1 p.2) with hpsm
  have hpsmlen : psm.length = ps.length := by rw [hpsm]; simp
  set psf := psm ++ [hash2 a z] with hpsf
  have hpsflen : psf.length = ps.length + 1 := by rw [hpsf]; simp [hpsmlen]
  obtain ⟨hokF, hpartF, hfullF, hfinF⟩ := ihe (hash2 z z) psf (by omega)
  obtain ⟨hokP, hpartP, -, -⟩ := ihe (hash2 z z) psm (by omega)
  -- the base-stream state after the paired leaves
  rcases hP : process_leaves hash2 (new (e + 1)) psm with ⟨P, eP⟩
  rw [hP] at hokP hpartP
  simp only at hokP hpartP
  subst hokP
  have hrunP := process_leaves_ok hash2 psm (new (e + 1))
    (by show 2 ^ e + psm.length ≤ 2 ^ (e + 1 + 1) + 1; omega)
  rw [hP] at hrunP
  have hnextP : P.next_leaf = M := by
    have := hrunP.2.1
    simp only at this
    rw [this]
    show 2 ^ e + psm.length = M
    omega
  have hdepP : P.depth = e + 1 := hrunP.2.2
  have hrootP : P.root = none := hpartP (by omega)
  have hsinvP := StackInv_process_leaves hash2 psm (new (e + 1))
    (by intro nd hnd; simp [new] at hnd) Nat.one_le_two_pow
  rw [hP] at hsinvP
  -- the base-stream state after additionally absorbing `hash2 a z`
  rcases hF : process_leaves hash2 (new (e + 1)) psf with ⟨F, eF⟩
  rw [hF] at hokF hpartF hfullF hfinF
  simp only at hokF hpartF hfullF hfinF
  subst hokF
  have hrunF := process_leaves_ok hash2 psf (new (e + 1))
    (by show 2 ^ e + psf.length ≤ 2 ^ (e + 1 + 1) + 1; omega)
  rw [hF] at hrunF
  have hnextF : F.next_leaf = M + 1 := by
    have := hrunF.2.1
    simp only at this
    rw [this]
    show 2 ^ e + psf.length = M + 1
    omega
  have hdepF : F.depth = e + 1 := hrunF.2.2
  have hsinvF := StackInv_process_leaves hash2 psf (new (e + 1))
    (by intro nd hnd; simp [new] at hnd) Nat.one_le_two_pow
  rw [hF] at hsinvF
  have hntF := process_leaves_nontrivial hash2 psf (new (e + 1)) F
    (by rw [hpsf]; simp) hF
  -- link the two base runs: `F` is `P` after one more leaf
  have hPpair : process_leaves hash2 (new (e + 1)) psm = (P, none) := hP
  have hchain : process_leaves hash2 P [hash2 a z] = (F, none) := by
    rw [← process_leaves_append hash2 psm [hash2 a z] (new (e + 1)) P hPpair]
    exact hF
  have hQ : process_leaf hash2 P (hash2 a z) = (F, none) := by
    rcases hq : process_leaf hash2 P (hash2 a z) with ⟨Fq, eQ⟩
    rw [process_leaves, hq] at hchain
    match eQ with
    | some err => simp at hchain
    | none =>
      simp [process_leaves] at hchain
      rw [hchain]
  -- run the lifted stream over the even part
  have hinv0 : StackInv (new (e + 1) : MerkleStream α) := by
    intro nd hnd; simp [new] at hnd
  have hn0 : 1 ≤ (new (e + 1) : MerkleStream α).next_leaf := Nat.one_le_two_pow
  have hcap0 : (new (e + 1) : MerkleStream α).next_leaf + ps.length ≤
      2 ^ ((new (e + 1) : MerkleStream α).depth + 1) := by
    show 2 ^ e + ps.length ≤ 2 ^ (e + 1 + 1)
    omega
  have hsim := pairs_sim hash2 ps (new (e + 1)) hinv0 hn0 hcap0
  rw [lift_new (e + 1) (by omega), ← hpsm, hP] at hsim
  have hdrun : process_leaves hash2 (new (e + 1 + 1)) (flatten2 ps ++ [a]) =
      process_leaves hash2 (lift P) [a] :=
    process_leaves_append hash2 (flatten2 ps) [a] _ (lift P) hsim.1
  -- the lifted stream absorbs the odd leftover leaf as a pushed half-node
  have hliftP : lift P = ⟨P.half_nodes, e + 1 + 1, 2 * M, none⟩ := by
    unfold lift
    rw [hdepP, hnextP, hrootP]
  set S : MerkleStream α := ⟨⟨a, M⟩ :: P.half_nodes, e + 1 + 1, 2 * M + 1, none⟩
    with hSdef
  have hstepA : process_leaf hash2 (lift P) a = (S, none) := by
    rw [hliftP]
    rw [process_leaf_even hash2 (⟨P.half_nodes, e + 1 + 1, 2 * M, none⟩ :
      MerkleStream α) a (by show ¬ 2 ^ (e + 1 + 1 + 1) < 2 * M; omega)
      (by show 2 * M ≠ 1; omega) (by show 2 * M % 2 = 0; omega)]
    have hgp : get_parent (2 * M) = M := by unfold get_parent; omega
    rw [hSdef]
    show ((⟨⟨a, get_parent (2 * M)⟩ :: P.half_nodes, e + 1 + 1, 2 * M + 1, none⟩ :
      MerkleStream α), (none : Option StreamError)) = _
    rw [hgp]
  have hrunD : process_leaves hash2 (lift P) [a] = (S, none) := by
    rw [process_leaves, hstepA]
    rfl
  rw [hdrun, hrunD]
  -- spec-side bridge
  have hspec : spec_root hash2 z (e + 1) (flatten2 ps ++ [a]) =
      spec_root hash2 (hash2 z z) e psf := by
    rw [spec_root_pair, pair_up_flatten2_odd, hpsf, hpsm]
  refine ⟨rfl, fun _ => rfl, fun h => absurd h (by omega), ?_⟩
  rw [hspec]
  -- the one-leaf base step, replayed through the two-leaf lifted simulation
  have hpair2 := pair_step_sim hash2 P a z hsinvP.1 (by omega)
    (by rw [hdepP, hnextP]; show M < 2 ^ (e + 1 + 1); omega)
  rw [hQ] at hpair2
  have hrunD2 : process_leaves hash2 (lift P) [a, z] = process_leaves hash2 S [z] :=
    process_leaves_cons_ok hash2 [z] hstepA
  rw [hrunD2] at hpair2
  have hQ2 : process_leaf hash2 S z = (lift F, none) := by
    rcases hq : process_leaf hash2 S z with ⟨Fq, eQ⟩
    rw [process_leaves, hq] at hpair2
    match eQ with
    | some err => simp at hpair2
    | none =>
      simp [process_leaves] at hpair2
      rw [hpair2]
  -- extract the collapse components from the equation for the second leaf
  have hmaxS : ¬ 2 ^ (S.depth + 1) < S.next_leaf := by
    show ¬ 2 ^ (e + 1 + 1 + 1) < 2 * M + 1; omega
  have hneS : S.next_leaf ≠ 1 := by show 2 * M + 1 ≠ 1; omega
  have hoddS : ¬ S.next_leaf % 2 = 0 := by show ¬ (2 * M + 1) % 2 = 0; omega
  rw [process_leaf_odd hash2 S z hmaxS hneS hoddS] at hQ2
  have hgpS : get_parent S.next_leaf = M := by
    show get_parent (2 * M + 1) = M
    unfold get_parent; omega
  rw [hgpS] at hQ2
  injection hQ2 with hQ2 _
  have hstackC : (collapse hash2 S.half_nodes M z).1 = F.half_nodes := by
    have := congrArg MerkleStream.half_nodes hQ2
    simpa [lift] using this
  have hrootC : ((collapse hash2 S.half_nodes M z).2).elim S.root some = F.root := by
    have := congrArg MerkleStream.root hQ2
    simpa [lift] using this
  -- finishing: one explicit step, then the simulated finishing walk of `F`
  have hlogM : Nat.log2 M = e :=
    log2_eq_of_bounds (by omega) (by rw [pow_succ]; omega)
  have hzS : zero_hash hash2 z S ((⟨a, M⟩ : HalfNode α).id * 2 + 1) = z := by
    unfold zero_hash get_depth
    show get_zero_hash hash2 z (e + 1 + 1 - (Nat.log2 (M * 2 + 1) + 1)) = z
    have hmul : M * 2 + 1 = 2 * M + 1 := by ring
    rw [hmul, log2_double_succ (by omega), hlogM]
    have : e + 1 + 1 - (e + 1 + 1) = 0 := by omega
    rw [this]
    rfl
  have hT0 : process_right_node hash2 S ((⟨a, M⟩ : HalfNode α).id * 2 + 1)
      (zero_hash hash2 z S ((⟨a, M⟩ : HalfNode α).id * 2 + 1)) =
      ⟨F.half_nodes, e + 1 + 1, 2 * M + 1, F.root⟩ := by
    rw [hzS, process_right_node_eq]
    have hgp' : get_parent ((⟨a, M⟩ : HalfNode α).id * 2 + 1) = M := by
      show get_parent (M * 2 + 1) = M
      unfold get_parent; omega
    rw [hgp']
    rw [show S.root = none from rfl] at hrootC
    rw [hstackC, hrootC]
  -- assemble the fuel chain
  set F1 := 4 * 2 ^ (e + 1) - 3 with hF1
  have hfs := finish_sim hash2 z F1 F (spec_root hash2 (hash2 z z) e psf) ?_ ?_ ?_ ?_ hfinF
  · have hliftF : lift F = ⟨F.half_nodes, e + 1 + 1, 2 * (M + 1), F.root⟩ := by
      unfold lift
      rw [hdepF, hnextF]
    rw [hliftF] at hfs
    have hirrel := finish_go_next_irrel hash2 z (2 * F1 + 2) F.half_nodes (e + 1 + 1)
      (2 * M + 1) (2 * (M + 1)) F.root ?_
    · have hfuel : 4 * 2 ^ (e + 1 + 1) - 3 = (2 * F1 + 2) + 1 := by
        rw [hF1]; omega
      rw [hfuel]
      rw [@finish_go_cons _ hash2 z (2 * F1 + 2) S ⟨a, M⟩ P.half_nodes rfl rfl, hT0,
        hirrel]
      exact hfs
    · rcases hntF with h | h
      · exact Or.inr h
      · exact Or.inl h
  · intro nd hnd
    obtain ⟨ha, hb⟩ := hsinvF.1 nd hnd
    refine ⟨ha, ?_⟩
    rw [hdepF]
    show nd.id < 2 ^ e
    rw [hnextF] at hb
    omega
  · rw [hdepF, hnextF]
    show 2 ^ e ≤ M + 1
    omega
  · rcases Nat.lt_or_ge (ps.length + 1) (2 ^ e) with hlt | hge
    · left
      rw [hdepF, hnextF]
      omega
    · right
      have heq : psf.length = 2 ^ e := by omega
      rw [hfullF heq]
      rfl
  · rw [hdepF]
    omega

theorem merkle_main (hash2 : α → α → α) : ∀ e, MainProp hash2 e := by
  intro e
  induction e with
  | zero => exact main_zero hash2
  | succ e ih =>
    intro z ls hlen
    rcases exists_flatten2_decomp ls with ⟨ps, rfl⟩ | ⟨ps, a, rfl⟩
    · exact main_succ_even hash2 e ih z ps hlen
    · exact main_succ_odd hash2 e ih z ps a hlen

/-- C1: for every depth `d ≥ 1` and every sequence of at most `2 ^ (d - 1)`
leaves supplied in order via `process_leaf`, `MerkleStream::new(d)` followed
by `finish()` accepts every leaf and returns the root of the zero-padded
full binary Merkle tree of depth `d` over those leaves (missing trailing
leaves are the zero value, and inner nodes hash the concatenation of their
children). -/
theorem C1_stream_matches_padded_merkle_root (hash2 : α → α → α) (z : α)
    (d : Nat) (ls : List α) (hd : 1 ≤ d) (hlen : ls.length ≤ 2 ^ (d - 1)) :
    (process_leaves hash2 (new d) ls).2 = none ∧
    finish hash2 z (process_leaves hash2 (new d) ls).1 =
      some (spec_root hash2 z (d - 1) ls) := by
  obtain ⟨e, rfl⟩ : ∃ e, d = e + 1 := ⟨d - 1, by omega⟩
  have hlen' : ls.length ≤ 2 ^ e := by
    have : e + 1 - 1 = e := rfl
    rw [this] at hlen
    exact hlen
  have hmain := merkle_main hash2 e z ls hlen'
  have hsub : e + 1 - 1 = e := rfl
  rw [hsub]
  refine ⟨hmain.1, ?_⟩
  have hdep : (process_leaves hash2 (new (e + 1)) ls).1.depth = e + 1 := by
    have h2e : 1 ≤ (2 : Nat) ^ e := Nat.one_le_two_pow
    have hp2 : (2 : Nat) ^ (e + 1 + 1) = 4 * 2 ^ e := by ring
    have := process_leaves_ok hash2 ls (new (e + 1))
      (by show 2 ^ e + ls.length ≤ 2 ^ (e + 1 + 1) + 1; omega)
    exact this.2.2
  show finish_go hash2 z (4 * 2 ^ (process_leaves hash2 (new (e + 1)) ls).1.depth)
    (process_leaves hash2 (new (e + 1)) ls).1 = some (spec_root hash2 z e ls)
  rw [hdep]
  exact finish_go_mono hash2 z _ _ _ hmain.2.2.2 _ (by omega)

/-- Witness for C1 at a concrete instance: depth 3, three leaves over `Nat`
with a concrete combiner. -/
theorem C1_stream_matches_padded_merkle_root_witness :
    (1 ≤ 3 ∧ ([1, 2, 3] : List Nat).length ≤ 2 ^ (3 - 1)) ∧
    ((process_leaves (fun a b => 2 * a + 3 * b + 1) (new 3) [1, 2, 3]).2 = none ∧
     finish (fun a b => 2 * a + 3 * b + 1) 0
       (process_leaves (fun a b => 2 * a + 3 * b + 1) (new 3) [1, 2, 3]).1 =
       some (spec_root (fun a b => 2 * a + 3 * b + 1) 0 (3 - 1) [1, 2, 3])) :=
  ⟨⟨by norm_num, by norm_num⟩,
    C1_stream_matches_padded_merkle_root (fun a b => 2 * a + 3 * b + 1) 0 3
      [1, 2, 3] (by norm_num) (by norm_num)⟩

/-- C2 counterexample: the claim says a depth-1 stream rejects the third
(`2 ^ 1 + 1`-th) `process_leaf` call, but the code's bound
`next_leaf > 2 ^ (depth + 1)` only trips on the fifth call: the third call
(and even the fourth) still returns `Ok(())`. -/
theorem C2_counterexample :
    (process_leaves (fun a b : Nat => a + b) (new 1) [0, 0, 0]).2 = none ∧
    (process_leaves (fun a b : Nat => a + b) (new 1) [0, 0, 0, 0]).2 = none ∧
    (process_leaves (fun a b : Nat => a + b) (new 1) [0, 0, 0, 0, 0]).2 =
      some (.MaximumLeavesExceeded 4) := by
  decide

/-- C2 (amended): a `MerkleStream` of depth `d ≥ 1` accepts the first
`3 * 2 ^ (d - 1) + 1` calls to `process_leaf` and rejects the
`3 * 2 ^ (d - 1) + 2`-nd call with `MaximumLeavesExceeded` whose
`max_leaves` field equals `2 ^ (d + 1)`; on that rejection the stream state
is unchanged. -/
theorem C2_amended_capacity_check (hash2 : α → α → α) (d : Nat) (ls : List α)
    (hd : 1 ≤ d) (hlen : ls.length = 3 * 2 ^ (d - 1) + 1) :
    (process_leaves hash2 (new d) ls).2 = none ∧
    ∀ leaf, process_leaf hash2 (process_leaves hash2 (new d) ls).1 leaf =
      ((process_leaves hash2 (new d) ls).1,
       some (.MaximumLeavesExceeded (2 ^ (d + 1)))) := by
  have hpow : (2 : Nat) ^ (d + 1) = 4 * 2 ^ (d - 1) := by
    have h1 : d + 1 = (d - 1) + 2 := by omega
    rw [h1]
    ring
  have hnew : (new d : MerkleStream α).next_leaf = 2 ^ (d - 1) := rfl
  have hrun := process_leaves_ok hash2 ls (new d)
    (by rw [hnew, hlen]; show 2 ^ (d - 1) + (3 * 2 ^ (d - 1) + 1) ≤ 2 ^ (d + 1) + 1
        omega)
  refine ⟨hrun.1, fun leaf => ?_⟩
  have herr := process_leaf_err hash2 (process_leaves hash2 (new d) ls).1 leaf
    (by rw [hrun.2.2, hrun.2.1, hnew, hlen]
        show 2 ^ ((new d : MerkleStream α).depth + 1) < 2 ^ (d - 1) + (3 * 2 ^ (d - 1) + 1)
        show 2 ^ (d + 1) < 2 ^ (d - 1) + (3 * 2 ^ (d - 1) + 1)
        omega)
  rw [herr, hrun.2.2]
  show _ = (_, some (StreamError.MaximumLeavesExceeded (2 ^ (d + 1))))
  rw [show (new d : MerkleStream α).depth = d from rfl]

/-- Witness for the amended C2 at depth 1: four zeros are accepted, the
fifth call fails with `max_leaves = 4` and leaves the state unchanged. -/
theorem C2_amended_capacity_check_witness :
    (1 ≤ 1 ∧ ([0, 0, 0, 0] : List Nat).length = 3 * 2 ^ (1 - 1) + 1) ∧
    ((process_leaves (fun a b : Nat => a + b) (new 1) [0, 0, 0, 0]).2 = none ∧
     ∀ leaf, process_leaf (fun a b : Nat => a + b)
         (process_leaves (fun a b : Nat => a + b) (new 1) [0, 0, 0, 0]).1 leaf =
       ((process_leaves (fun a b : Nat => a + b) (new 1) [0, 0, 0, 0]).1,
        some (.MaximumLeavesExceeded (2 ^ (1 + 1))))) :=
  ⟨⟨by norm_num, by norm_num⟩,
    C2_amended_capacity_check (fun a b : Nat => a + b) 1 [0, 0, 0, 0]
      (by norm_num) (by norm_num)⟩

/-- C7: `new_for_leaf_count n` instantiates `new` at exactly the smallest
depth `d` with `2 ^ (d - 1) ≥ n` (namely `Nat.clog 2 n + 1`), hence produces
the identical stream — and so the identical root on every leaf sequence —
and `n = 0` still yields depth 1. -/
theorem C7_new_for_leaf_count_smallest_depth (n : Nat) (hn : 1 ≤ n) :
    (new_for_leaf_count n : MerkleStream α) = new (Nat.clog 2 n + 1) ∧
    n ≤ 2 ^ ((Nat.clog 2 n + 1) - 1) ∧
    (∀ d, 1 ≤ d → n ≤ 2 ^ (d - 1) → Nat.clog 2 n + 1 ≤ d) ∧
    (∀ (hash2 : α → α → α) (z : α) (ls : List α), ls.length = n →
      finish hash2 z (process_leaves hash2 (new_for_leaf_count n) ls).1 =
        finish hash2 z (process_leaves hash2 (new (Nat.clog 2 n + 1)) ls).1) ∧
    (new_for_leaf_count 0 : MerkleStream α).depth = 1 := by
  have hdepth : get_depth (next_power_of_two n) = Nat.clog 2 n := by
    unfold next_power_of_two
    by_cases h1 : n ≤ 1
    · have hn1 : n = 1 := by omega
      rw [if_pos h1, hn1]
      show Nat.log2 1 = Nat.clog 2 1
      rw [@log2_eq_of_bounds 0 1 (by norm_num) (by norm_num), Nat.clog_one_right]
    · rw [if_neg h1]
      unfold get_depth
      exact log2_eq_of_bounds le_rfl (Nat.pow_lt_pow_right (by norm_num) (by omega))
  have hstream : (new_for_leaf_count n : MerkleStream α) = new (Nat.clog 2 n + 1) := by
    unfold new_for_leaf_count
    rw [hdepth]
  refine ⟨hstream, ?_, ?_, ?_, ?_⟩
  · show n ≤ 2 ^ (Nat.clog 2 n + 1 - 1)
    have : Nat.clog 2 n + 1 - 1 = Nat.clog 2 n := rfl
    rw [this]
    exact Nat.le_pow_clog (by norm_num) n
  · intro d hd hcap
    have := (@Nat.le_pow_iff_clog_le 2 (by norm_num) n (d - 1)).mp hcap
    omega
  · intro hash2 z ls _
    rw [hstream]
  · show get_depth (next_power_of_two 0) + 1 = 1
    have h0 : next_power_of_two 0 = 1 := by unfold next_power_of_two; norm_num
    rw [h0]
    show Nat.log2 1 + 1 = 1
    rw [@log2_eq_of_bounds 0 1 (by norm_num) (by norm_num)]

/-- Witness for C7 at `n = 3`: the convenience constructor picks depth 3. -/
theorem C7_new_for_leaf_count_smallest_depth_witness :
    1 ≤ 3 ∧
    ((new_for_leaf_count 3 : MerkleStream Nat) = new (Nat.clog 2 3 + 1) ∧
     3 ≤ 2 ^ ((Nat.clog 2 3 + 1) - 1) ∧
     (∀ d, 1 ≤ d → 3 ≤ 2 ^ (d - 1) → Nat.clog 2 3 + 1 ≤ d) ∧
     (∀ (hash2 : Nat → Nat → Nat) (z : Nat) (ls : List Nat), ls.length = 3 →
       finish hash2 z (process_leaves hash2 (new_for_leaf_count 3) ls).1 =
         finish hash2 z (process_leaves hash2 (new (Nat.clog 2 3 + 1)) ls).1) ∧
     (new_for_leaf_count 0 : MerkleStream Nat).depth = 1) :=
  ⟨by norm_num, C7_new_for_leaf_count_smallest_depth 3 (by norm_num)⟩

/-- C9 counterexample: for a depth-1 stream, the claim says later leaves
leave the recorded root unchanged, so `finish` would return the first leaf;
in fact the third leaf overwrites the root with the hash of leaves 2 and 3. -/
theorem C9_counterexample :
    (process_leaves (fun a b : Nat => 2 * a + 3 * b + 1) (new 1) [5, 6, 7]).2 =
      none ∧
    (process_leaves (fun a b : Nat => 2 * a + 3 * b + 1) (new 1) [5]).1.root =
      some 5 ∧
    ¬ finish (fun a b : Nat => 2 * a + 3 * b + 1) 0
        (process_leaves (fun a b : Nat => 2 * a + 3 * b + 1) (new 1) [5, 6, 7]).1 =
      some 5 := by
  decide

/-- C9 (amended): for a depth-1 stream, after the first leaf records the
root, subsequent calls below the capacity check still return `Ok(())`; the
second leaf leaves the recorded root unchanged (so `finish` still returns
the first leaf), but the third leaf replaces the root with the hash of the
second and third leaves, which `finish` then returns. -/
theorem C9_amended_depth_one_root_overwrite (hash2 : α → α → α) (z : α)
    (a b c : α) :
    (process_leaves hash2 (new 1) [a, b]).2 = none ∧
    (process_leaves hash2 (new 1) [a, b]).1.root = some a ∧
    finish hash2 z (process_leaves hash2 (new 1) [a, b]).1 = some a ∧
    (process_leaves hash2 (new 1) [a, b, c]).2 = none ∧
    (process_leaves hash2 (new 1) [a, b, c]).1.root = some (hash2 b c) ∧
    finish hash2 z (process_leaves hash2 (new 1) [a, b, c]).1 =
      some (hash2 b c) := by
  refine ⟨?_, ?_, ?_, ?_, ?_, ?_⟩ <;>
    simp [process_leaves, process_leaf, process_left_node, process_right_node,
      collapse, new, get_parent, finish, finish_go]

end MerkleModel

namespace SyncModel

/-!
Shallow embedding of `beacon_node/network/src/sync/message_processor.rs`.

32-byte hashes, peers, slots, epochs, fork versions, signatures and public
keys are modelled as naturals (`Hash256::zero()` is `0`); SSZ-serialized
block payloads are modelled by the blocks themselves.  The chain/store
interface consumed by the processor is a record of oracles; fallible
operations return `Except Unit _`, mirroring `Result<_, Error>` with the
error payload irrelevant to control flow.  Handlers return the list of
messages they emit, in emission order.
-/

abbrev Hash := Nat
abbrev Slot := Nat
abbrev Epoch := Nat
abbrev PeerId := Nat
abbrev RequestId := Nat

/-- `FUTURE_SLOT_TOLERANCE` (`message_processor.rs` line 26). -/
def FUTURE_SLOT_TOLERANCE : Nat := 1

/-- The status handshake snapshot. -/
structure StatusMessage where
  fork_version : Nat
  finalized_root : Hash
  finalized_epoch : Epoch
  head_root : Hash
  head_slot : Slot
  deriving Repr, DecidableEq

/-- `PeerSyncInfo` (same fields as `StatusMessage`). -/
structure PeerSyncInfo where
  fork_version : Nat
  finalized_root : Hash
  finalized_epoch : Epoch
  head_root : Hash
  head_slot : Slot
  deriving Repr, DecidableEq

/-- `impl From<StatusMessage> for PeerSyncInfo`. -/
def PeerSyncInfo.ofStatus (status : StatusMessage) : PeerSyncInfo :=
  { fork_version := status.fork_version
    finalized_root := status.finalized_root
    finalized_epoch := status.finalized_epoch
    head_root := status.head_root
    head_slot := status.head_slot }

inductive GoodbyeReason where
  | IrrelevantNetwork
  | Fault
  deriving Repr, DecidableEq

/-- The block fields read by the processor. -/
structure BeaconBlock where
  slot : Slot
  parent_root : Hash
  state_root : Hash
  signature : Nat
  deriving Repr, DecidableEq

structure Validator where
  pubkey : Nat
  deriving Repr, DecidableEq

structure Fork where
  previous_version : Nat
  current_version : Nat
  epoch : Epoch
  deriving Repr, DecidableEq

structure Checkpoint where
  epoch : Epoch
  root : Hash
  deriving Repr, DecidableEq

/-- The beacon-state fields read by the processor.  Internal committee
caches are not semantic fields; `build_committee_cache` is modelled as a
fallible check below. -/
structure BeaconState where
  slot : Slot
  fork : Fork
  finalized_checkpoint : Checkpoint
  validators : List Validator
  deriving Repr, DecidableEq

inductive RPCRequest where
  | Status (msg : StatusMessage)
  | Goodbye (reason : GoodbyeReason)
  deriving Repr, DecidableEq

inductive RPCResponse where
  | Status (msg : StatusMessage)
  | BlocksByRange (block : BeaconBlock)
  | BlocksByRoot (block : BeaconBlock)
  deriving Repr, DecidableEq

inductive ResponseTermination where
  | BlocksByRange
  | BlocksByRoot
  deriving Repr, DecidableEq

inductive RPCErrorResponse where
  | Success (res : RPCResponse)
  | StreamTermination (kind : ResponseTermination)
  deriving Repr, DecidableEq

inductive RPCEvent where
  | Request (id : RequestId) (req : RPCRequest)
  | Response (id : RequestId) (res : RPCErrorResponse)
  deriving Repr, DecidableEq

inductive NetworkMessage where
  | RPC (peer : PeerId) (event : RPCEvent)
  | Disconnect (peer : PeerId)
  deriving Repr, DecidableEq

/-- `AttestationProcessingOutcome` as matched by `on_attestation_gossip`
(the `{ .. }` payloads the handler ignores are omitted). -/
inductive AttestationProcessingOutcome where
  | Processed
  | UnknownHeadBlock (beacon_block_root : Hash)
  | AttestsToFutureState
  | FinalizedSlot
  | Invalid
  | EmptyAggregationBitfield
  deriving Repr, DecidableEq

inductive SyncMessage where
  | AddPeer (peer : PeerId) (info : PeerSyncInfo)
  | BlocksByRangeResponse (peer : PeerId) (request_id : RequestId)
      (beacon_block : Option BeaconBlock)
  | BlocksByRootResponse (peer : PeerId) (request_id : RequestId)
      (beacon_block : Option BeaconBlock)
  | UnknownBlock (peer : PeerId) (block : BeaconBlock)
  | UnknownBlockHash (peer : PeerId) (root : Hash)
  | Disconnect (peer : PeerId)
  | RPCError (peer : PeerId) (request_id : RequestId)
  deriving Repr, DecidableEq

/-- A message emitted by the processor: either into the network channel or
into the sync-manager channel. -/
inductive Msg where
  | Net (m : NetworkMessage)
  | Sync (m : SyncMessage)
  deriving Repr, DecidableEq

/-- `NetworkContext::disconnect`: a Goodbye RPC request (with the default
request id `0`) followed by a `Disconnect` network message. -/
def disconnect (peer : PeerId) (reason : GoodbyeReason) : List Msg :=
  [.Net (.RPC peer (.Request 0 (.Goodbye reason))), .Net (.Disconnect peer)]

/-- The read-only chain/store interface consumed by `MessageProcessor`. -/
structure ChainEnv where
  slots_per_epoch : Nat
  headState : BeaconState
  headStateRoot : Hash
  headBlockRoot : Hash
  slot : Except Unit Slot
  rootAtSlot : Slot → Option Hash
  existsBlock : Hash → Except Unit Bool
  getBlock : Hash → Except Unit (Option BeaconBlock)
  getState : Hash → Option Slot → Except Unit (Option BeaconState)
  perSlotProcessing : BeaconState → Except Unit BeaconState
  buildCommitteeCache : BeaconState → Bool
  beaconProposerIndex : BeaconState → Slot → Except Unit Nat
  getDomain : Epoch → Fork → Nat
  signedRoot : BeaconBlock → Nat
  sigValid : (signature : Nat) → (pubkey : Nat) → (message : Nat) →
    (domain : Nat) → Bool
  processAttestation : Nat → Except Unit AttestationProcessingOutcome
  revIterBlockRoots : List (Hash × Slot)

/-- `Slot::epoch(slots_per_epoch)`. -/
def slot_epoch (env : ChainEnv) (slot : Slot) : Epoch := slot / env.slots_per_epoch

/-- `Epoch::start_slot(slots_per_epoch)`. -/
def epoch_start_slot (env : ChainEnv) (epoch : Epoch) : Slot :=
  epoch * env.slots_per_epoch

/-- `fn status_message(beacon_chain)`. -/
def status_message (env : ChainEnv) : StatusMessage :=
  { fork_version := env.headState.fork.current_version
    finalized_root := env.headState.finalized_checkpoint.root
    finalized_epoch := env.headState.finalized_checkpoint.epoch
    head_root := env.headBlockRoot
    head_slot := env.headState.slot }

/-- `self.chain.slot().unwrap_or_else(|_| Slot::from(0u64))`. -/
def chain_slot_or_zero (env : ChainEnv) : Slot :=
  match env.slot with
  | .ok s => s
  | .error _ => 0

/-- `MessageProcessor::process_status`. -/
def process_status (env : ChainEnv) (peer : PeerId) (status : StatusMessage) :
    List Msg :=
  -- the source binds `remote := PeerSyncInfo::from(status)` and
  -- `local := PeerSyncInfo::from(&self.chain)`; both are inlined here
  if (PeerSyncInfo.ofStatus (status_message env)).fork_version ≠
      (PeerSyncInfo.ofStatus status).fork_version then
    disconnect peer .IrrelevantNetwork
  else if (PeerSyncInfo.ofStatus status).head_slot >
      chain_slot_or_zero env + FUTURE_SLOT_TOLERANCE then
    disconnect peer .IrrelevantNetwork
  else if (PeerSyncInfo.ofStatus status).finalized_epoch ≤
      (PeerSyncInfo.ofStatus (status_message env)).finalized_epoch ∧
      (PeerSyncInfo.ofStatus status).finalized_root ≠ (0 : Hash) ∧
      (PeerSyncInfo.ofStatus (status_message env)).finalized_root ≠ (0 : Hash) ∧
      env.rootAtSlot (epoch_start_slot env
          (PeerSyncInfo.ofStatus status).finalized_epoch) ≠
        some (PeerSyncInfo.ofStatus status).finalized_root then
    disconnect peer .IrrelevantNetwork
  else if (PeerSyncInfo.ofStatus status).finalized_epoch <
      (PeerSyncInfo.ofStatus (status_message env)).finalized_epoch then
    -- NaivePeer: log only, no messages
    []
  else if (match env.existsBlock (PeerSyncInfo.ofStatus status).head_root with
      | .ok b => b
      | .error _ => false) then
    [.Sync (.AddPeer peer (PeerSyncInfo.ofStatus status))]
  else
    -- UsefulPeer
    [.Sync (.AddPeer peer (PeerSyncInfo.ofStatus status))]

/-- C3: when the remote status's fork version differs from the local one,
`process_status` issues exactly the disconnect sequence with reason
`IrrelevantNetwork` (one Goodbye and the network disconnect) and sends no
`AddPeer` to the sync manager, regardless of all other fields and oracles. -/
theorem C3_fork_mismatch_disconnects (env : ChainEnv) (peer : PeerId)
    (status : StatusMessage)
    (h : (PeerSyncInfo.ofStatus (status_message env)).fork_version ≠
      (PeerSyncInfo.ofStatus status).fork_version) :
    process_status env peer status = disconnect peer .IrrelevantNetwork ∧
    ∀ p info, Msg.Sync (.AddPeer p info) ∉ process_status env peer status := by
  have heq : process_status env peer status = disconnect peer .IrrelevantNetwork := by
    unfold process_status
    rw [if_pos h]
  refine ⟨heq, ?_⟩
  intro p info
  rw [heq]
  unfold disconnect
  simp

/-- Witness for C3: a concrete environment whose local fork version is 1
against a remote status with fork version 2. -/
theorem C3_fork_mismatch_disconnects_witness :
    ((PeerSyncInfo.ofStatus (status_message
        { slots_per_epoch := 8
          headState :=
            { slot := 5, fork := ⟨1, 1, 0⟩, finalized_checkpoint := ⟨0, 3⟩
              validators := [] }
          headStateRoot := 40, headBlockRoot := 41, slot := .ok 5
          rootAtSlot := fun _ => none, existsBlock := fun _ => .ok false
          getBlock := fun _ => .ok none, getState := fun _ _ => .ok none
          perSlotProcessing := fun s => .ok s
          buildCommitteeCache := fun _ => true
          beaconProposerIndex := fun _ _ => .error ()
          getDomain := fun _ _ => 0, signedRoot := fun _ => 0
          sigValid := fun _ _ _ _ => false
          processAttestation := fun _ => .error ()
          revIterBlockRoots := [] })).fork_version ≠
      (PeerSyncInfo.ofStatus ⟨2, 3, 0, 9, 5⟩).fork_version) ∧
    (process_status
        { slots_per_epoch := 8
          headState :=
            { slot := 5, fork := ⟨1, 1, 0⟩, finalized_checkpoint := ⟨0, 3⟩
              validators := [] }
          headStateRoot := 40, headBlockRoot := 41, slot := .ok 5
          rootAtSlot := fun _ => none, existsBlock := fun _ => .ok false
          getBlock := fun _ => .ok none, getState := fun _ _ => .ok none
          perSlotProcessing := fun s => .ok s
          buildCommitteeCache := fun _ => true
          beaconProposerIndex := fun _ _ => .error ()
          getDomain := fun _ _ => 0, signedRoot := fun _ => 0
          sigValid := fun _ _ _ _ => false
          processAttestation := fun _ => .error ()
          revIterBlockRoots := [] } 7 ⟨2, 3, 0, 9, 5⟩ =
      disconnect 7 .IrrelevantNetwork ∧
     ∀ p info, Msg.Sync (.AddPeer p info) ∉ process_status
        { slots_per_epoch := 8
          headState :=
            { slot := 5, fork := ⟨1, 1, 0⟩, finalized_checkpoint := ⟨0, 3⟩
              validators := [] }
          headStateRoot := 40, headBlockRoot := 41, slot := .ok 5
          rootAtSlot := fun _ => none, existsBlock := fun _ => .ok false
          getBlock := fun _ => .ok none, getState := fun _ _ => .ok none
          perSlotProcessing := fun s => .ok s
          buildCommitteeCache := fun _ => true
          beaconProposerIndex := fun _ _ => .error ()
          getDomain := fun _ _ => 0, signedRoot := fun _ => 0
          sigValid := fun _ _ _ _ => false
          processAttestation := fun _ => .error ()
          revIterBlockRoots := [] } 7 ⟨2, 3, 0, 9, 5⟩) :=
  ⟨by decide,
    C3_fork_mismatch_disconnects _ 7 ⟨2, 3, 0, 9, 5⟩ (by decide)⟩

/-- C10: when rules 1-4 do not fire and the store existence check for the
remote head root returns an error, `unwrap_or_else(|_| false)` treats the
root as unknown: the peer reaches the UsefulPeer fallback, an `AddPeer`
message is still sent, and no disconnect is issued. -/
theorem C10_store_error_still_adds_peer (env : ChainEnv) (peer : PeerId)
    (status : StatusMessage)
    (h1 : ¬ (PeerSyncInfo.ofStatus (status_message env)).fork_version ≠
      (PeerSyncInfo.ofStatus status).fork_version)
    (h2 : ¬ (PeerSyncInfo.ofStatus status).head_slot >
      chain_slot_or_zero env + FUTURE_SLOT_TOLERANCE)
    (h3 : ¬ ((PeerSyncInfo.ofStatus status).finalized_epoch ≤
        (PeerSyncInfo.ofStatus (status_message env)).finalized_epoch ∧
      (PeerSyncInfo.ofStatus status).finalized_root ≠ (0 : Hash) ∧
      (PeerSyncInfo.ofStatus (status_message env)).finalized_root ≠ (0 : Hash) ∧
      env.rootAtSlot (epoch_start_slot env
          (PeerSyncInfo.ofStatus status).finalized_epoch) ≠
        some (PeerSyncInfo.ofStatus status).finalized_root))
    (h4 : ¬ (PeerSyncInfo.ofStatus status).finalized_epoch <
      (PeerSyncInfo.ofStatus (status_message env)).finalized_epoch)
    (h5 : env.existsBlock (PeerSyncInfo.ofStatus status).head_root = .error ()) :
    process_status env peer status =
      [.Sync (.AddPeer peer (PeerSyncInfo.ofStatus status))] := by
  unfold process_status
  rw [if_neg h1, if_neg h2, if_neg h3, if_neg h4, if_neg (by rw [h5]; simp)]

/-- Witness for C10: an environment whose block-existence check fails. -/
theorem C10_store_error_still_adds_peer_witness :
    process_status
      { slots_per_epoch := 8
        headState :=
          { slot := 5, fork := ⟨1, 1, 0⟩, finalized_checkpoint := ⟨2, 3⟩
            validators := [] }
        headStateRoot := 40, headBlockRoot := 41, slot := .ok 5
        rootAtSlot := fun _ => some 3, existsBlock := fun _ => .error ()
        getBlock := fun _ => .ok none, getState := fun _ _ => .ok none
        perSlotProcessing := fun s => .ok s
        buildCommitteeCache := fun _ => true
        beaconProposerIndex := fun _ _ => .error ()
        getDomain := fun _ _ => 0, signedRoot := fun _ => 0
        sigValid := fun _ _ _ _ => false
        processAttestation := fun _ => .error ()
        revIterBlockRoots := [] } 7 ⟨1, 3, 2, 9, 5⟩ =
      [.Sync (.AddPeer 7 (PeerSyncInfo.ofStatus ⟨1, 3, 2, 9, 5⟩))] :=
  C10_store_error_still_adds_peer _ 7 ⟨1, 3, 2, 9, 5⟩ (by decide) (by decide)
    (by decide) (by decide) rfl

/-- `MessageProcessor::on_attestation_gossip`: dispatch on the chain
engine's outcome.  `Processed` and the ignored outcomes only log;
`UnknownHeadBlock` notifies the sync manager; `Invalid` and
`EmptyAggregationBitfield` disconnect the peer with `Fault`; engine errors
only log. -/
def on_attestation_gossip (env : ChainEnv) (peer : PeerId) (msg : Nat) :
    List Msg :=
  match env.processAttestation msg with
  | .ok .Processed => []
  | .ok (.UnknownHeadBlock root) => [.Sync (.UnknownBlockHash peer root)]
  | .ok .AttestsToFutureState => []
  | .ok .FinalizedSlot => []
  | .ok .Invalid => disconnect peer .Fault
  | .ok .EmptyAggregationBitfield => disconnect peer .Fault
  | .error _ => []

/-- C6: on outcome `Invalid` or `EmptyAggregationBitfield` the peer is
disconnected with `Fault`; on `AttestsToFutureState` or `FinalizedSlot`
nothing is sent anywhere; on an engine error nothing is sent (in particular
the peer is not disconnected). -/
theorem C6_attestation_gossip_outcomes (env : ChainEnv) (peer : PeerId)
    (msg : Nat) :
    (env.processAttestation msg = .ok .Invalid →
      on_attestation_gossip env peer msg = disconnect peer .Fault) ∧
    (env.processAttestation msg = .ok .EmptyAggregationBitfield →
      on_attestation_gossip env peer msg = disconnect peer .Fault) ∧
    (env.processAttestation msg = .ok .AttestsToFutureState →
      on_attestation_gossip env peer msg = []) ∧
    (env.processAttestation msg = .ok .FinalizedSlot →
      on_attestation_gossip env peer msg = []) ∧
    (∀ e, env.processAttestation msg = .error e →
      on_attestation_gossip env peer msg = []) := by
  refine ⟨?_, ?_, ?_, ?_, ?_⟩
  · intro h; unfold on_attestation_gossip; rw [h]
  · intro h; unfold on_attestation_gossip; rw [h]
  · intro h; unfold on_attestation_gossip; rw [h]
  · intro h; unfold on_attestation_gossip; rw [h]
  · intro e h; unfold on_attestation_gossip; rw [h]

/-- Witness for C6: an engine that reports `Invalid` leads to a `Fault`
disconnect. -/
theorem C6_attestation_gossip_outcomes_witness :
    ({ slots_per_epoch := 8
       headState :=
         { slot := 5, fork := ⟨1, 1, 0⟩, finalized_checkpoint := ⟨0, 3⟩
           validators := [] }
       headStateRoot := 40, headBlockRoot := 41, slot := .ok 5
       rootAtSlot := fun _ => none, existsBlock := fun _ => .ok false
       getBlock := fun _ => .ok none, getState := fun _ _ => .ok none
       perSlotProcessing := fun s => .ok s
       buildCommitteeCache := fun _ => true
       beaconProposerIndex := fun _ _ => .error ()
       getDomain := fun _ _ => 0, signedRoot := fun _ => 0
       sigValid := fun _ _ _ _ => false
       processAttestation := fun _ => .ok .Invalid
       revIterBlockRoots := [] } : ChainEnv).processAttestation 0 =
        .ok .Invalid ∧
    on_attestation_gossip
      { slots_per_epoch := 8
        headState :=
          { slot := 5, fork := ⟨1, 1, 0⟩, finalized_checkpoint := ⟨0, 3⟩
            validators := [] }
        headStateRoot := 40, headBlockRoot := 41, slot := .ok 5
        rootAtSlot := fun _ => none, existsBlock := fun _ => .ok false
        getBlock := fun _ => .ok none, getState := fun _ _ => .ok none
        perSlotProcessing := fun s => .ok s
        buildCommitteeCache := fun _ => true
        beaconProposerIndex := fun _ _ => .error ()
        getDomain := fun _ _ => 0, signedRoot := fun _ => 0
        sigValid := fun _ _ _ _ => false
        processAttestation := fun _ => .ok .Invalid
        revIterBlockRoots := [] } 7 0 = disconnect 7 .Fault :=
  ⟨rfl, (C6_attestation_gossip_outcomes _ 7 0).1 rfl⟩

/-! ### `should_forward_block` -/

/-- The per-slot fast-forward loop
`for _ in state.slot..block.slot { per_slot_processing(&mut state)? }`,
iterated a fixed number of times (the Rust range is evaluated once). -/
def advance_slots (env : ChainEnv) : Nat → BeaconState → Except Unit BeaconState
  | 0, state => .ok state
  | n + 1, state =>
    match env.perSlotProcessing state with
    | .ok state' => advance_slots env n state'
    | .error e => .error e

/-- Stage 1 of `should_forward_block`: fetch the parent block and acquire a
state for signature checking (the chain-head state when the parent's state
root matches it, otherwise a store read). -/
def sfb_parent_and_state (env : ChainEnv) (block : BeaconBlock) :
    Option (BeaconBlock × BeaconState) :=
  match env.getBlock block.parent_root with
  | .ok (some parent_block) =>
    match (if env.headStateRoot = parent_block.state_root
        then .ok (some env.headState)
        else env.getState parent_block.state_root (some block.slot)) with
    | .ok (some state) => some (parent_block, state)
    | _ => none
  | _ => none

/-- Stage 2 of `should_forward_block`: when the block's epoch is past the
parent's, fast-forward the state slot by slot and build the current-epoch
committee cache.  `build_committee_cache` only (re)builds internal caches,
so it is modelled as a fallible check that leaves the semantic state
unchanged. -/
def sfb_advanced_state (env : ChainEnv) (block : BeaconBlock) :
    Option BeaconState :=
  match sfb_parent_and_state env block with
  | none => none
  | some (parent_block, state) =>
    if slot_epoch env block.slot + 1 > slot_epoch env parent_block.slot then
      match advance_slots env (block.slot - state.slot) state with
      | .error _ => none
      | .ok state' =>
        if env.buildCommitteeCache state' then some state' else none
    else some state

/-- Stage 3 of `should_forward_block`: the proposer for the block's slot,
looked up in the (possibly advanced) state's validator registry. -/
def sfb_proposer (env : ChainEnv) (block : BeaconBlock) : Option Validator :=
  match sfb_advanced_state env block with
  | none => none
  | some state =>
    match env.beaconProposerIndex state block.slot with
    | .ok i => state.validators[i]?
    | .error _ => none

/-- `MessageProcessor::should_forward_block`, composed from the three
stages: any miss or failure yields `false`, and the only `true` result is
the final signature verification. -/
def should_forward_block (env : ChainEnv) (block : BeaconBlock) : Bool :=
  match sfb_advanced_state env block with
  | none => false
  | some state =>
    match sfb_proposer env block with
    | some proposer =>
      env.sigValid block.signature proposer.pubkey (env.signedRoot block)
        (env.getDomain (slot_epoch env block.slot) state.fork)
    | none => false

/-- C4: `should_forward_block` returns `true` only by a successful BLS
verification of the block's signature against the proposer computed for
`block.slot` from the per-slot-advanced parent state, the block's signed
root, and the `BeaconProposer` domain derived from that state's fork and
`epoch(block.slot)`. -/
theorem C4_forward_true_implies_signature_valid (env : ChainEnv)
    (block : BeaconBlock) (h : should_forward_block env block = true) :
    ∃ state proposer,
      sfb_advanced_state env block = some state ∧
      sfb_proposer env block = some proposer ∧
      env.sigValid block.signature proposer.pubkey (env.signedRoot block)
        (env.getDomain (slot_epoch env block.slot) state.fork) = true := by
  unfold should_forward_block at h
  rcases hs : sfb_advanced_state env block with _ | state
  · rw [hs] at h; simp at h
  · rw [hs] at h
    rcases hp : sfb_proposer env block with _ | proposer
    · rw [hp] at h; simp at h
    · rw [hp] at h
      exact ⟨state, proposer, rfl, rfl, h⟩

/-- A parent block stored under root `1` for exercising
`should_forward_block` on a concrete chain. -/
def sfbTestParent : BeaconBlock :=
  { slot := 8, parent_root := 0, state_root := 5, signature := 0 }

/-- A block whose parent is `sfbTestParent` and whose signature the test
environment accepts. -/
def sfbTestBlock : BeaconBlock :=
  { slot := 9, parent_root := 1, state_root := 2, signature := 3 }

/-- A concrete environment on which `should_forward_block` returns `true`:
the parent's state root matches the head state, the epoch advances, the
proposer lookup succeeds, and every signature verifies. -/
def sfbTestEnv : ChainEnv :=
  { slots_per_epoch := 8
    headState :=
      { slot := 8, fork := ⟨1, 1, 0⟩, finalized_checkpoint := ⟨0, 3⟩
        validators := [⟨42⟩] }
    headStateRoot := 5, headBlockRoot := 41, slot := .ok 9
    rootAtSlot := fun _ => none, existsBlock := fun _ => .ok false
    getBlock := fun r => if r = 1 then .ok (some sfbTestParent) else .ok none
    getState := fun _ _ => .ok none
    perSlotProcessing := fun s => .ok s
    buildCommitteeCache := fun _ => true
    beaconProposerIndex := fun _ _ => .ok 0
    getDomain := fun _ _ => 0, signedRoot := fun _ => 0
    sigValid := fun _ _ _ _ => true
    processAttestation := fun _ => .ok .Processed
    revIterBlockRoots := [] }

/-- Witness for C4: on a concrete chain `should_forward_block` returns
`true`, and the theorem exhibits the advanced state, the proposer, and the
successful signature check. -/
theorem C4_forward_true_implies_signature_valid_witness :
    should_forward_block sfbTestEnv sfbTestBlock = true ∧
    ∃ state proposer,
      sfb_advanced_state sfbTestEnv sfbTestBlock = some state ∧
      sfb_proposer sfbTestEnv sfbTestBlock = some proposer ∧
      sfbTestEnv.sigValid sfbTestBlock.signature proposer.pubkey
        (sfbTestEnv.signedRoot sfbTestBlock)
        (sfbTestEnv.getDomain (slot_epoch sfbTestEnv sfbTestBlock.slot)
          state.fork) = true :=
  ⟨rfl, C4_forward_true_implies_signature_valid sfbTestEnv sfbTestBlock rfl⟩

/-! ### `on_blocks_by_range_request` -/

/-- `BlocksByRangeRequest` (the handler reads `start_slot` and `count`). -/
structure BlocksByRangeRequest where
  start_slot : Slot
  count : Nat
  deriving Repr, DecidableEq

/-- `Vec::dedup_by_key(|brs| brs.slot)`, comparing each element against the
previously retained one: the recursive walk with the last kept block. -/
def dedup_go (prev : BeaconBlock) : List BeaconBlock → List BeaconBlock
  | [] => []
  | b :: rest =>
    if b.slot = prev.slot then dedup_go prev rest
    else b :: dedup_go b rest

/-- `Vec::dedup_by_key(|brs| brs.slot)`: drop all but the first of each run
of consecutive blocks with equal slots. -/
def dedup_by_slot : List BeaconBlock → List BeaconBlock
  | [] => []
  | b :: rest => b :: dedup_go b rest

/-- The block list assembled by `on_blocks_by_range_request`: rev-iterate
the chain's block roots, keep the requested slot window, stop at the first
root before `start_slot`, fetch each root from the store (dropping roots
the store misses), keep blocks whose own slot is in range, then reverse
into ascending order and de-duplicate consecutive equal slots. -/
def range_request_blocks (env : ChainEnv) (req : BlocksByRangeRequest) :
    List BeaconBlock :=
  dedup_by_slot
    (((((env.revIterBlockRoots.filter (fun p =>
            decide (req.start_slot ≤ p.2) &&
            decide (req.start_slot + req.count > p.2))).takeWhile
          (fun p => decide (req.start_slot ≤ p.2))).filterMap
          (fun p =>
            match env.getBlock p.1 with
            | .ok (some block) => some block
            | _ => none)).filter
        (fun block => decide (req.start_slot ≤ block.slot))).reverse)

/-- `MessageProcessor::on_blocks_by_range_request`: one `Success` response
chunk per collected block, then the `BlocksByRange` stream terminator, all
on the request's id. -/
def on_blocks_by_range_request (env : ChainEnv) (peer : PeerId)
    (id : RequestId) (req : BlocksByRangeRequest) : List Msg :=
  (range_request_blocks env req).map
      (fun block =>
        .Net (.RPC peer (.Response id (.Success (.BlocksByRange block)))))
    ++ [.Net (.RPC peer (.Response id (.StreamTermination .BlocksByRange)))]

theorem dedup_go_subset (prev : BeaconBlock) (l : List BeaconBlock) :
    ∀ x ∈ dedup_go prev l, x ∈ l := by
  induction l generalizing prev with
  | nil => intro x hx; exact absurd hx (by simp [dedup_go])
  | cons b rest ih =>
    intro x hx
    unfold dedup_go at hx
    by_cases hb : b.slot = prev.slot
    · rw [if_pos hb] at hx
      exact List.mem_cons_of_mem b (ih prev x hx)
    · rw [if_neg hb] at hx
      rcases List.mem_cons.mp hx with h | h
      · exact h ▸ List.mem_cons_self b rest
      · exact List.mem_cons_of_mem b (ih b x h)

theorem dedup_by_slot_subset (l : List BeaconBlock) :
    ∀ x ∈ dedup_by_slot l, x ∈ l := by
  cases l with
  | nil => intro x hx; exact absurd hx (by simp [dedup_by_slot])
  | cons b rest =>
    intro x hx
    rcases List.mem_cons.mp hx with h | h
    · exact h ▸ List.mem_cons_self b rest
    · exact List.mem_cons_of_mem b (dedup_go_subset b rest x h)

theorem dedup_go_pairwise (prev : BeaconBlock) (l : List BeaconBlock)
    (h : (prev :: l).Pairwise (fun b1 b2 => b1.slot ≤ b2.slot)) :
    (prev :: dedup_go prev l).Pairwise (fun b1 b2 => b1.slot < b2.slot) := by
  induction l generalizing prev with
  | nil => simp [dedup_go]
  | cons b rest ih =>
    rcases List.pairwise_cons.mp h with ⟨hprev, hbl⟩
    rcases List.pairwise_cons.mp hbl with ⟨hb, hrest⟩
    unfold dedup_go
    by_cases hs : b.slot = prev.slot
    · rw [if_pos hs]
      refine ih prev (List.pairwise_cons.mpr ⟨?_, hrest⟩)
      intro x hx
      exact hprev x (List.mem_cons_of_mem b hx)
    · rw [if_neg hs]
      have hlt : prev.slot < b.slot :=
        lt_of_le_of_ne (hprev b (List.mem_cons_self b rest)) (fun e => hs e.symm)
      have htail := ih b hbl
      refine List.pairwise_cons.mpr ⟨?_, htail⟩
      intro x hx
      rcases List.mem_cons.mp hx with hxe | hxm
      · exact hxe ▸ hlt
      · exact lt_of_lt_of_le hlt (hb x (dedup_go_subset b rest x hxm))

theorem dedup_by_slot_pairwise (l : List BeaconBlock)
    (h : l.Pairwise (fun b1 b2 => b1.slot ≤ b2.slot)) :
    (dedup_by_slot l).Pairwise (fun b1 b2 => b1.slot < b2.slot) := by
  cases l with
  | nil => simp [dedup_by_slot]
  | cons b rest => exact dedup_go_pairwise b rest h

theorem fetch_eq_some (env : ChainEnv) (p : Hash × Slot) (b : BeaconBlock)
    (h : (match env.getBlock p.1 with
          | .ok (some block) => some block
          | _ => none) = some b) :
    env.getBlock p.1 = .ok (some b) := by
  cases hg : env.getBlock p.1 with
  | error e => rw [hg] at h; simp at h
  | ok ob =>
    cases ob with
    | none => rw [hg] at h; simp at h
    | some block =>
      rw [hg] at h
      simp only [Option.some.injEq] at h
      rw [h]

/-- C5: `rev_iter_block_roots` yields one entry per slot, newest first,
repeating the latest block's root across skipped slots.  The theorem
assumes only what that guarantees: each entry's fetched block is at or
before the advertised slot, and fetched blocks never get newer as the
iterator walks back.  Then the handler's output is the collected block
list as `Success(BlocksByRange)` chunks followed by exactly one
`StreamTermination(BlocksByRange)` on the same request id; every collected
block's slot lies in `[start_slot, start_slot + count)`, and the blocks
are in strictly ascending slot order (hence at most one per slot). -/
theorem C5_blocks_by_range_response (env : ChainEnv)
    (req : BlocksByRangeRequest) (peer : PeerId) (id : RequestId)
    (hcons : ∀ p ∈ env.revIterBlockRoots, ∀ b : BeaconBlock,
      env.getBlock p.1 = .ok (some b) → b.slot ≤ p.2)
    (hmono : env.revIterBlockRoots.Pairwise
      (fun p q : Hash × Slot => ∀ x y : BeaconBlock,
        env.getBlock p.1 = .ok (some x) → env.getBlock q.1 = .ok (some y) →
        y.slot ≤ x.slot)) :
    on_blocks_by_range_request env peer id req =
      (range_request_blocks env req).map
          (fun block =>
            .Net (.RPC peer (.Response id (.Success (.BlocksByRange block)))))
        ++ [.Net (.RPC peer
            (.Response id (.StreamTermination .BlocksByRange)))] ∧
    (∀ b ∈ range_request_blocks env req,
      req.start_slot ≤ b.slot ∧ b.slot < req.start_slot + req.count) ∧
    (range_request_blocks env req).Pairwise
      (fun b1 b2 => b1.slot < b2.slot) := by
  refine ⟨rfl, ?_, ?_⟩
  · intro b hb
    have hb1 := dedup_by_slot_subset _ b hb
    rw [List.mem_reverse, List.mem_filter] at hb1
    rcases hb1 with ⟨hb2, hlow⟩
    have hlow' : req.start_slot ≤ b.slot := by simpa using hlow
    refine ⟨hlow', ?_⟩
    rcases List.mem_filterMap.mp hb2 with ⟨p, hp, hfp⟩
    have hp1 : p ∈ env.revIterBlockRoots.filter (fun p =>
        decide (req.start_slot ≤ p.2) &&
        decide (req.start_slot + req.count > p.2)) :=
      (List.takeWhile_sublist _).subset hp
    rw [List.mem_filter] at hp1
    rcases hp1 with ⟨hpm, hpc⟩
    have hup : p.2 < req.start_slot + req.count := by
      have := (Bool.and_eq_true _ _).mp hpc
      simpa using this.2
    have hget : env.getBlock p.1 = .ok (some b) := fetch_eq_some env p b hfp
    have hslot : b.slot ≤ p.2 := hcons p hpm b hget
    exact lt_of_le_of_lt hslot hup
  · refine dedup_by_slot_pairwise _ ?_
    rw [List.pairwise_reverse]
    have h1 : (env.revIterBlockRoots.filter (fun p =>
        decide (req.start_slot ≤ p.2) &&
        decide (req.start_slot + req.count > p.2))).Pairwise
        (fun p q : Hash × Slot => ∀ x y : BeaconBlock,
          env.getBlock p.1 = .ok (some x) →
          env.getBlock q.1 = .ok (some y) → y.slot ≤ x.slot) :=
      List.Pairwise.sublist (List.filter_sublist _) hmono
    have h2 : ((env.revIterBlockRoots.filter (fun p =>
        decide (req.start_slot ≤ p.2) &&
        decide (req.start_slot + req.count > p.2))).takeWhile
        (fun p => decide (req.start_slot ≤ p.2))).Pairwise
        (fun p q : Hash × Slot => ∀ x y : BeaconBlock,
          env.getBlock p.1 = .ok (some x) →
          env.getBlock q.1 = .ok (some y) → y.slot ≤ x.slot) :=
      List.Pairwise.sublist (List.takeWhile_sublist _) h1
    refine List.Pairwise.sublist (List.filter_sublist _)
      (List.pairwise_filterMap.mpr (List.Pairwise.imp ?_ h2))
    intro a b hr x hx y hy
    exact hr x y (fetch_eq_some env a x (Option.mem_def.mp hx))
      (fetch_eq_some env b y (Option.mem_def.mp hy))

/-- A block at slot 10 stored under root 1. -/
def rangeTestB10 : BeaconBlock :=
  { slot := 10, parent_root := 0, state_root := 0, signature := 0 }

/-- A block at slot 11 stored under root 2. -/
def rangeTestB11 : BeaconBlock :=
  { slot := 11, parent_root := 1, state_root := 0, signature := 0 }

/-- A block at slot 13 stored under root 3 (slot 12 is skipped). -/
def rangeTestB13 : BeaconBlock :=
  { slot := 13, parent_root := 2, state_root := 0, signature := 0 }

/-- The genesis block at slot 0, stored under root 9. -/
def rangeTestB0 : BeaconBlock :=
  { slot := 0, parent_root := 0, state_root := 0, signature := 0 }

/-- A chain with blocks at slots 10, 11 and 13, rev-iterated newest first
with one entry per slot: the skipped slot 12 repeats block 11's root, and
slots 9 and 8 repeat the genesis root. -/
def rangeTestEnv : ChainEnv :=
  { slots_per_epoch := 8
    headState :=
      { slot := 13, fork := ⟨1, 1, 0⟩, finalized_checkpoint := ⟨0, 3⟩
        validators := [] }
    headStateRoot := 5, headBlockRoot := 3, slot := .ok 13
    rootAtSlot := fun _ => none, existsBlock := fun _ => .ok false
    getBlock := fun r =>
      if r = 1 then .ok (some rangeTestB10)
      else if r = 2 then .ok (some rangeTestB11)
      else if r = 3 then .ok (some rangeTestB13)
      else if r = 9 then .ok (some rangeTestB0)
      else .ok none
    getState := fun _ _ => .ok none
    perSlotProcessing := fun s => .ok s
    buildCommitteeCache := fun _ => true
    beaconProposerIndex := fun _ _ => .error ()
    getDomain := fun _ _ => 0, signedRoot := fun _ => 0
    sigValid := fun _ _ _ _ => false
    processAttestation := fun _ => .ok .Processed
    revIterBlockRoots :=
      [(3, 13), (2, 12), (2, 11), (1, 10), (9, 9), (9, 8)] }

/-- Witness for C5, the spec's own example: a `BlocksByRange` request with
`start_slot = 10`, `count = 4` against a chain with blocks at slots 10, 11
and 13 yields the three blocks in ascending order followed by the stream
terminator. -/
theorem C5_blocks_by_range_response_witness :
    on_blocks_by_range_request rangeTestEnv 7 5 ⟨10, 4⟩ =
      [.Net (.RPC 7 (.Response 5 (.Success (.BlocksByRange rangeTestB10)))),
       .Net (.RPC 7 (.Response 5 (.Success (.BlocksByRange rangeTestB11)))),
       .Net (.RPC 7 (.Response 5 (.Success (.BlocksByRange rangeTestB13)))),
       .Net (.RPC 7 (.Response 5 (.StreamTermination .BlocksByRange)))] ∧
    (∀ b ∈ range_request_blocks rangeTestEnv ⟨10, 4⟩,
      (10 : Slot) ≤ b.slot ∧ b.slot < 10 + 4) ∧
    (range_request_blocks rangeTestEnv ⟨10, 4⟩).Pairwise
      (fun b1 b2 => b1.slot < b2.slot) :=
  ⟨by decide,
    (C5_blocks_by_range_response rangeTestEnv ⟨10, 4⟩ 7 5
      (by
        intro p hp b hb
        fin_cases hp <;>
          · simp only [rangeTestEnv] at hb
            norm_num at hb
            rw [← hb]
            decide)
      (by
        simp only [rangeTestEnv, List.pairwise_cons, List.mem_cons,
          List.not_mem_nil, List.Pairwise.nil]
        norm_num [rangeTestB0, rangeTestB10, rangeTestB11,
          rangeTestB13])).2⟩

end SyncModel

/-! ## Store: `LevelDB::do_atomically` (`src/beacon_node/store/src/leveldb_store.rs`) -/

namespace StoreModel

abbrev Hash := Nat

abbrev Slot := Nat

/-- The database columns touched by `do_atomically`. -/
inductive DBColumn where
  | BeaconBlock
  | BeaconState
  | BeaconStateSummary
  deriving Repr, DecidableEq

/-- `get_key_for_col(col, hash)` concatenates the column tag's bytes with
the 32-byte hash; for fixed-width hashes that map is injective, so the
produced `BytesKey` is modelled as the column–hash pair itself. -/
structure BytesKey where
  col : DBColumn
  key : Hash
  deriving Repr, DecidableEq

/-- A `Writebatch` entry: `put(key, value)` or `delete(key)`.  Values are
the serialized bytes, modelled as a `Nat`. -/
inductive BatchEntry where
  | put (key : BytesKey) (value : Nat)
  | del (key : BytesKey)
  deriving Repr, DecidableEq

/-- `StoreOp`, as matched by `do_atomically` (block and state payloads are
their serialized bytes, modelled as a `Nat`). -/
inductive StoreOp where
  | PutBlock (block_hash : Hash) (block : Nat)
  | PutState (state_hash : Hash) (state : Nat)
  | DeleteBlock (block_hash : Hash)
  | DeleteState (state_hash : Hash) (slot : Slot)
  deriving Repr, DecidableEq

/-- The write-batch entries one `StoreOp` contributes in `do_atomically`:
puts go to the `BeaconBlock` / `BeaconState` columns, `DeleteBlock` deletes
the block key, and `DeleteState` always deletes the `BeaconStateSummary`
key and deletes the `BeaconState` key exactly when
`slot % slots_per_epoch == 0`. -/
def op_batch_entries (slots_per_epoch : Nat) : StoreOp → List BatchEntry
  | .PutBlock h v => [.put ⟨.BeaconBlock, h⟩ v]
  | .PutState h v => [.put ⟨.BeaconState, h⟩ v]
  | .DeleteBlock h => [.del ⟨.BeaconBlock, h⟩]
  | .DeleteState h slot =>
    [.del ⟨.BeaconStateSummary, h⟩] ++
      (if slot % slots_per_epoch = 0 then [.del ⟨.BeaconState, h⟩] else [])

/-- The effect of one batch entry on the key-value map. -/
def apply_entry (db : BytesKey → Option Nat) :
    BatchEntry → BytesKey → Option Nat
  | .put k v, q => if q = k then some v else db q
  | .del k, q => if q = k then none else db q

/-- `LevelDB::do_atomically`: accumulate every op's write-batch entries in
order, then apply the whole batch to the database. -/
def do_atomically (slots_per_epoch : Nat) (ops_batch : List StoreOp)
    (db : BytesKey → Option Nat) : BytesKey → Option Nat :=
  ((ops_batch.map (op_batch_entries slots_per_epoch)).flatten).foldl
    apply_entry db

theorem do_atomically_append (spe : Nat) (ops1 ops2 : List StoreOp)
    (db : BytesKey → Option Nat) :
    do_atomically spe (ops1 ++ ops2) db =
      do_atomically spe ops2 (do_atomically spe ops1 db) := by
  unfold do_atomically
  rw [List.map_append, List.flatten_append, List.foldl_append]

/-- C8: inside any batch, a `DeleteState(hash, slot)` op's step (the fold
over its write-batch entries) always removes the `BeaconStateSummary`
entry for `hash`, removes the `BeaconState` entry for `hash` exactly when
`slot % slots_per_epoch == 0`, and leaves every other key unchanged; and
`do_atomically` on a batch containing the op factors through that step at
the op's position. -/
theorem C8_delete_state_epoch_aligned (spe : Nat) (h : Hash) (slot : Slot)
    (pre post : List StoreOp) (db : BytesKey → Option Nat)
    (_hspe : 0 < spe) :
    do_atomically spe (pre ++ .DeleteState h slot :: post) db =
      do_atomically spe post
        ((op_batch_entries spe (.DeleteState h slot)).foldl apply_entry
          (do_atomically spe pre db)) ∧
    (∀ db0 : BytesKey → Option Nat,
      ((op_batch_entries spe (.DeleteState h slot)).foldl apply_entry db0)
          ⟨.BeaconStateSummary, h⟩ = none ∧
      ((op_batch_entries spe (.DeleteState h slot)).foldl apply_entry db0)
          ⟨.BeaconState, h⟩ =
        (if slot % spe = 0 then none else db0 ⟨.BeaconState, h⟩) ∧
      (∀ k : BytesKey, k ≠ ⟨.BeaconStateSummary, h⟩ →
        k ≠ ⟨.BeaconState, h⟩ →
        ((op_batch_entries spe (.DeleteState h slot)).foldl apply_entry db0)
          k = db0 k)) := by
  constructor
  · have : pre ++ StoreOp.DeleteState h slot :: post =
        (pre ++ [StoreOp.DeleteState h slot]) ++ post := by
      simp
    rw [this, do_atomically_append, do_atomically_append]
    simp [do_atomically]
  · intro db0
    by_cases hs : slot % spe = 0
    · refine ⟨?_, ?_, ?_⟩
      · simp [op_batch_entries, hs, apply_entry]
      · simp [op_batch_entries, hs, apply_entry]
      · intro k h1 h2
        simp [op_batch_entries, hs, apply_entry, if_neg h1, if_neg h2]
    · refine ⟨?_, ?_, ?_⟩
      · simp [op_batch_entries, hs, apply_entry]
      · simp [op_batch_entries, hs, apply_entry]
      · intro k h1 h2
        simp [op_batch_entries, hs, apply_entry, if_neg h1]

/-- Witness for C8: deleting the state at hash 5 and slot 16 (epoch-aligned
for 8 slots per epoch) removes both the summary and the state body while a
block entry at the same hash survives. -/
theorem C8_delete_state_epoch_aligned_witness :
    0 < 8 ∧
    ((op_batch_entries 8 (.DeleteState 5 16)).foldl apply_entry
        (fun _ => some 1)) ⟨.BeaconStateSummary, 5⟩ = none ∧
    ((op_batch_entries 8 (.DeleteState 5 16)).foldl apply_entry
        (fun _ => some 1)) ⟨.BeaconState, 5⟩ = none ∧
    ((op_batch_entries 8 (.DeleteState 5 16)).foldl apply_entry
        (fun _ => some 1)) ⟨.BeaconBlock, 5⟩ = some 1 :=
  ⟨by decide,
   ((C8_delete_state_epoch_aligned 8 5 16 [] [] (fun _ => some 1)
      (by decide)).2 (fun _ => some 1)).1,
   ((C8_delete_state_epoch_aligned 8 5 16 [] [] (fun _ => some 1)
      (by decide)).2 (fun _ => some 1)).2.1,
   ((C8_delete_state_epoch_aligned 8 5 16 [] [] (fun _ => some 1)
      (by decide)).2 (fun _ => some 1)).2.2 ⟨.BeaconBlock, 5⟩ (by decide)
     (by decide)⟩

end StoreModel
